import Mathlib

/- Verification of the task-catalog scripts: reference synchronization
   (scripts/lib/references.js), folder utilities (scripts/lib/task-utils.js),
   index generation (scripts/generate-metadata.js) and validation
   (scripts/validate-tasks.js / lib/constants.js).

   JavaScript strings are embedded as lists of Unicode scalars (List Char).
   The regular expressions of the source are small and fixed, so their
   matching behaviour (first-match scanning, greedy and lazy quantifiers,
   lookahead) is translated into explicit executable functions. -/

set_option maxRecDepth 8192

namespace AppMod

/-- A JavaScript string, as its list of Unicode scalar values. -/
abbrev Str := List Char

/-- Whitespace class matched by the regex escape backslash-s in JavaScript
(also the set trimmed by String.prototype.trim / trimEnd): ASCII whitespace,
NBSP, OGHAM space, the U+2000..U+200A range, line/paragraph separators,
narrow/medium/ideographic spaces and the BOM. -/
def isJsWs (c : Char) : Bool :=
  c = ' ' || c = '\t' || c = '\n' || c = '\u000B' || c = '\u000C' || c = '\r' ||
  c = ' ' || c = ' ' ||
  c = ' ' || c = ' ' || c = ' ' || c = ' ' || c = ' ' ||
  c = ' ' || c = ' ' || c = ' ' || c = ' ' || c = ' ' ||
  c = ' ' || c = ' ' || c = ' ' || c = ' ' || c = ' ' ||
  c = '　' || c = '﻿'

/-- Characters matched by the regex metacharacter dot (no s-flag): everything
except the four line terminators. -/
def isDotChar (c : Char) : Bool :=
  !(c = '\n' || c = '\r' || c = ' ' || c = ' ')

/-- JS String.prototype.split with a single-character separator. -/
def splitOnChar (sep : Char) : Str → List Str
  | [] => [[]]
  | c :: rest =>
    if c = sep then [] :: splitOnChar sep rest
    else
      match splitOnChar sep rest with
      | l :: ls => (c :: l) :: ls
      | [] => [[c]]

/-- JS String.prototype.split with separator a single newline. -/
def splitOnNl : Str → List Str := splitOnChar '\n'

/-- JS Array.prototype.join with a single-newline separator. -/
def joinLines : List Str → Str
  | [] => []
  | [l] => l
  | l :: ls => l ++ '\n' :: joinLines ls

/-- Drop trailing JS whitespace (String.prototype.trimEnd). -/
def trimEndJs (s : Str) : Str := ((s.reverse).dropWhile isJsWs).reverse

/-- JS String.prototype.trim. -/
def trimJs (s : Str) : Str := trimEndJs (s.dropWhile isJsWs)

/-- Split a string at the first occurrence of pat: returns the part strictly
before the occurrence and the part strictly after it (the semantics of
scanning for the first regex/indexOf match of a literal pattern). -/
def splitFirst (pat : Str) : Str → Option (Str × Str)
  | [] => if pat.isEmpty then some ([], []) else none
  | c :: rest =>
    if pat.isPrefixOf (c :: rest) then some ([], (c :: rest).drop pat.length)
    else
      match splitFirst pat rest with
      | some (pre, post) => some (c :: pre, post)
      | none => none

/-- JS String.prototype.replace with a plain-string pattern and a replacement
that contains no dollar sign (the source only uses the empty replacement). -/
def replaceFirstStr (pat repl s : Str) : Str :=
  match splitFirst pat s with
  | some (pre, post) => pre ++ repl ++ post
  | none => s

/-- UTF-16 code units of one scalar value (surrogate pair for the
supplementary planes). -/
def utf16Units (c : Char) : List Nat :=
  if c.toNat < 65536 then [c.toNat]
  else [55296 + (c.toNat - 65536) / 1024, 56320 + (c.toNat - 65536) % 1024]

/-- A JS string as its UTF-16 code-unit sequence; JS string comparison
(the default Array.prototype.sort comparator) is lexicographic on this. -/
def utf16Key (s : Str) : List Nat := (s.map utf16Units).flatten

/-- Lexicographic less-or-equal on code-unit sequences. -/
def keyLe : List Nat → List Nat → Bool
  | [], _ => true
  | _ :: _, [] => false
  | a :: as, b :: bs => if a < b then true else if b < a then false else keyLe as bs

/-- The ordering used by Array.prototype.sort with no comparator: compare
strings by their UTF-16 code-unit sequences. -/
def jsLe (a b : Str) : Prop := keyLe (utf16Key a) (utf16Key b) = true

instance : DecidableRel jsLe := fun a b => instDecidableEqBool (keyLe (utf16Key a) (utf16Key b)) true

/-- Array.prototype.sort() on an array of strings (a stable sort by code-unit
order; insertion sort is stable, and ES2019 requires stability). -/
def sortJs (l : List Str) : List Str := List.insertionSort jsLe l

/-- The literal matched at the start of the references regex. -/
def refLabel : Str := "**References:**".data

def fileTag : Str := "file:///".data

def gitFileTag : Str := "git+file:///".data

def httpTag : Str := "http://".data

def httpsTag : Str := "https://".data

/-- The lookahead of the references regex: a position where the lazy block
stops, namely end of input, a blank line, a level-two-or-deeper heading, or
a bold marker at the start of the next line. -/
def isBoundary (s : Str) : Bool :=
  s.isEmpty || ("\n\n".data).isPrefixOf s || ("\n##".data).isPrefixOf s ||
    ("\n**".data).isPrefixOf s

/-- Shortest prefix whose complement starts at a lookahead boundary (the lazy
group grows one character at a time until the lookahead holds; the
end-of-input alternative always holds eventually, so matching never fails). -/
def takeUntilBoundary : Str → Str
  | [] => []
  | c :: rest => if isBoundary (c :: rest) then [] else c :: takeUntilBoundary rest

/-- Decomposition performed by the references regex on its first match:
content = pre ++ refLabel ++ wsRun ++ block ++ after, where pre is the text
before the first occurrence of the label, wsRun is the maximal run of
whitespace after it (greedy, never backtracked since the lazy group always
succeeds via the end-of-input alternative), and block is the lazy capture
group, cut at the first lookahead boundary. none when the label does not
occur (the regex cannot match at all then). -/
def sectionSplit (content : Str) : Option (Str × Str × Str × Str) :=
  match splitFirst refLabel content with
  | none => none
  | some (pre, post) =>
    let wsRun := post.takeWhile isJsWs
    let body := post.dropWhile isJsWs
    let block := takeUntilBoundary body
    some (pre, wsRun, block, body.drop block.length)

/-- One attempt of the bullet-line regex tail: after skipping k characters
for the star of whitespace, the dot-plus group must start with a
non-line-terminator and then captures greedily. -/
def dashTailAt (rest : Str) (k : Nat) : Option Str :=
  match rest.drop k with
  | c :: cs => if isDotChar c then some ((c :: cs).takeWhile isDotChar) else none
  | [] => none

/-- Backtracking of the whitespace star: longest skip first. -/
def dashTailGo (rest : Str) : Nat → Option Str
  | 0 => dashTailAt rest 0
  | k + 1 =>
    match dashTailAt rest (k + 1) with
    | some g => some g
    | none => dashTailGo rest k

/-- The tail of the bullet regex after a dash: greedy whitespace star, then
the capture group (at least one non-terminator character, taken greedily). -/
def matchDashTail (rest : Str) : Option Str :=
  dashTailGo rest ((rest.takeWhile isJsWs).length)

/-- line.match of the bullet regex (dash, whitespace star, dot-plus group):
scan for the first dash at which the tail succeeds; yields capture group 1. -/
def dashMatch : Str → Option Str
  | [] => none
  | c :: rest =>
    if c = '-' then
      match matchDashTail rest with
      | some g => some g
      | none => dashMatch rest
    else dashMatch rest

/-- Result of parseReferences. -/
structure ParseResult where
  fileRefs : List Str
  urlRefs : List Str
  hasReferencesSection : Bool
deriving DecidableEq

/-- The filter-and-loop over the lines of the captured block: keep lines whose
trimmed form starts with a dash, extract the bullet payload, trim it, and
classify by leading tag (file, git+file, http/https); anything else is
silently dropped. Written with one recursive pass; the contribution of each
line is appended in line order, exactly as the source pushes. -/
def collectRefs : List Str → List Str × List Str
  | [] => ([], [])
  | line :: rest =>
    let tl := collectRefs rest
    if (trimJs line).head? = some '-' then
      match dashMatch line with
      | none => tl
      | some g =>
        let ref := trimJs g
        if fileTag.isPrefixOf ref then (replaceFirstStr fileTag [] ref :: tl.1, tl.2)
        else if gitFileTag.isPrefixOf ref then (replaceFirstStr gitFileTag [] ref :: tl.1, tl.2)
        else if httpTag.isPrefixOf ref || httpsTag.isPrefixOf ref then (tl.1, ref :: tl.2)
        else tl
    else tl

/-- parseReferences from scripts/lib/references.js. -/
def parseReferences (content : Str) : ParseResult :=
  match sectionSplit content with
  | none => ⟨[], [], false⟩
  | some (_, _, block, _) =>
    let res := collectRefs (splitOnNl block)
    ⟨res.1, res.2, true⟩

/-- The bullet line generated for one file: the git+file tag for .diff
files, the file tag otherwise. -/
def fileBullet (f : Str) : Str :=
  if (".diff".data).isSuffixOf f then "- git+file:///".data ++ f
  else "- file:///".data ++ f

/-- The bullet line generated for one URL reference. -/
def urlBullet (u : Str) : Str := "- ".data ++ u

/-- generateReferencesSection from scripts/lib/references.js: the label line,
one bullet per file (sorted; .diff files get the git+file tag), then one
bullet per URL in given order, joined by newlines. -/
def generateReferencesSection (files urlRefs : List Str) : Str :=
  joinLines (refLabel :: ((sortJs files).map fileBullet ++ urlRefs.map urlBullet))

/-- referencesMatch from scripts/lib/references.js: sort both arrays and
compare their JSON serializations, i.e. elementwise equality of the sorted
lists. -/
def referencesMatch (fileRefs actualFiles : List Str) : Bool :=
  decide (sortJs fileRefs = sortJs actualFiles)

/-- GetSubstitution of String.prototype.replace for the references regex
(one capture group, no named groups): dollar-dollar, dollar-ampersand,
dollar-backquote, dollar-quote, and group references; every other dollar is
literal. matched / before / after / grp are the matched text, the text
before and after the match, and capture group 1. -/
def getSubstitution (matched before after grp : Str) : Str → Str
  | [] => []
  | c :: rest =>
    if c = '$' then
      match rest with
      | [] => ['$']
      | d :: r2 =>
        if d = '$' then '$' :: getSubstitution matched before after grp r2
        else if d = '&' then matched ++ getSubstitution matched before after grp r2
        else if d = Char.ofNat 96 then before ++ getSubstitution matched before after grp r2
        else if d = Char.ofNat 39 then after ++ getSubstitution matched before after grp r2
        else if d = '0' then
          match r2 with
          | e :: r3 =>
            if e = '1' then grp ++ getSubstitution matched before after grp r3
            else '$' :: d :: getSubstitution matched before after grp (e :: r3)
          | [] => ['$', d]
        else if d = '1' then grp ++ getSubstitution matched before after grp r2
        else '$' :: d :: getSubstitution matched before after grp r2
    else c :: getSubstitution matched before after grp rest

/-- content.replace(references-regex, repl): replace the first match of the
regex, applying dollar substitution to the replacement string. -/
def replaceFirstSection (content repl : Str) : Str :=
  match sectionSplit content with
  | none => content
  | some (pre, wsRun, block, after) =>
    pre ++ getSubstitution (refLabel ++ wsRun ++ block) pre after block repl ++ after

/-- REFERENCE_EXTENSIONS from scripts/lib/constants.js. -/
def REFERENCE_EXTENSIONS : List Str :=
  [".java", ".xml", ".properties", ".json", ".yaml", ".yml",
   ".template", ".diff", ".txt", ".py", ".js", ".ts", ".md",
   ".groovy", ".kt", ".scala", ".gradle", ".sh", ".bat", ".ps1"].map String.data

/-- EXCLUDED_FILES from scripts/lib/constants.js. -/
def EXCLUDED_FILES : List Str := ["task.md", "README.md"].map String.data

/-- getTaskFiles from scripts/lib/task-utils.js, as a function of the folder
listing: keep files that are not excluded and have a known extension or
contain ".template"; sorted. -/
def getTaskFiles (folderFiles : List Str) : List Str :=
  sortJs (folderFiles.filter (fun f =>
    !(EXCLUDED_FILES.contains f) &&
    (REFERENCE_EXTENSIONS.any (fun ext => ext.isSuffixOf f) ||
      (splitFirst (".template".data) f).isSome)))

/-- Result of updateTaskReferences; content is the (possibly rewritten)
document text. added / removed are absent on the unchanged result in the
source and modelled as empty lists there. -/
structure UpdateResult where
  updated : Bool
  content : Str
  files : List Str
  added : List Str
  removed : List Str
deriving DecidableEq

/-- updateTaskReferences from scripts/lib/references.js, as a pure function
of the document text and the folder listing. -/
def updateTaskReferences (content : Str) (folderFiles : List Str) : UpdateResult :=
  let actualFiles := getTaskFiles folderFiles
  let pr := parseReferences content
  if referencesMatch pr.fileRefs actualFiles && pr.hasReferencesSection then
    ⟨false, content, actualFiles, [], []⟩
  else
    let newSec := generateReferencesSection actualFiles pr.urlRefs
    let newContent :=
      if pr.hasReferencesSection then replaceFirstSection content newSec
      else trimEndJs content ++ "\n\n".data ++ newSec ++ ['\n']
    ⟨true, newContent, actualFiles,
      actualFiles.filter (fun f => !(pr.fileRefs.contains f)),
      pr.fileRefs.filter (fun f => !(actualFiles.contains f))⟩

/-- Scalar values produced by YAML frontmatter parsing (gray-matter yields
JS values; the flat scalar subset suffices for the core). -/
inductive YamlScalar where
  | nullV : YamlScalar
  | boolV : Bool → YamlScalar
  | numV : Int → YamlScalar
  | strV : Str → YamlScalar
deriving DecidableEq

/-- JS truthiness of a frontmatter value: null, false, 0 and the empty
string are falsy. -/
def truthy : YamlScalar → Bool
  | .nullV => false
  | .boolV b => b
  | .numV n => decide (n ≠ 0)
  | .strV s => decide (s ≠ [])

/-- A parsed frontmatter object: keys in insertion order (keys are unique in
a JS object, lookup takes the first binding). -/
abbrev Frontmatter := List (Str × YamlScalar)

/-- Property access data[key]; none models undefined (key absent). -/
def lookupFm (data : Frontmatter) (key : Str) : Option YamlScalar :=
  match data with
  | [] => none
  | (k, v) :: rest => if k = key then some v else lookupFm rest key

/-- Truthiness of a property access (undefined is falsy). -/
def truthyO : Option YamlScalar → Bool
  | none => false
  | some v => truthy v

/-- Strict inequality data.id !== taskFolderName: a non-string value is never
strictly equal to a string. -/
def strictNeStr (v : YamlScalar) (s : Str) : Bool :=
  match v with
  | .strV t => decide (t ≠ s)
  | _ => true

/-- JS ToString on a frontmatter value, as applied to object keys
(idCounts[task.id]) and to the reported id. -/
def idKey : YamlScalar → Str
  | .strV s => s
  | .nullV => "null".data
  | .boolV true => "true".data
  | .boolV false => "false".data
  | .numV n => (toString n).data

/-- The frontmatter delimiter line. -/
def fmMarker : Str := "---".data

/-- Value strings become string scalars; an empty value is YAML null. -/
def scalarOf (s : Str) : YamlScalar := if s = [] then .nullV else .strV s

/-- Modelled from the spec: body of the FrontmatterExtractor (section 4.1);
the source delegates to the external gray-matter library. Lines up to the
matching closing marker are parsed as key/value pairs split at the first
colon; malformed lines are silently skipped; a missing closing marker is a
parse failure. -/
def parseFmLines : List Str → Frontmatter → Option Frontmatter
  | [], _ => none
  | l :: rest, acc =>
    if l = fmMarker then some acc
    else
      match splitFirst (":".data) l with
      | some (k, v) => parseFmLines rest (acc ++ [(trimJs k, scalarOf (trimJs v))])
      | none => parseFmLines rest acc

/-- Modelled from the spec: the FrontmatterExtractor (section 4.1); the
source calls the external gray-matter library. A document not starting with
the marker line has an empty mapping (not an error); an opening marker
without a closing marker is a parse failure (none, a thrown error in the
source). -/
def extractFrontmatter (content : Str) : Option Frontmatter :=
  match splitOnNl content with
  | l :: rest => if l = fmMarker then parseFmLines rest [] else some []
  | [] => some []

/-- TASKS_DIR from scripts/lib/constants.js. -/
def TASKS_DIR : Str := "tasks".data

/-- A catalog entry accumulated by generateMetadata. The source omits the
folderMismatch / folderName properties on a matching entry (so they read as
undefined, which is falsy); this is modelled by storing folderMismatch =
false and the folder name on every entry. -/
structure CatalogEntry where
  id : YamlScalar
  name : YamlScalar
  path : Str
  folderMismatch : Bool
  folderName : Str
deriving DecidableEq

/-- The metadata-extraction half of processTask in
scripts/generate-metadata.js, applied to the frontmatter object of the
(already synchronized) document: an entry iff both id and name are truthy,
with folderMismatch recording id !== folder name; otherwise the folder is
skipped with a warning. -/
def processTaskData (taskFolderName : Str) (data : Frontmatter) : Option CatalogEntry :=
  if truthyO (lookupFm data ("id".data)) && truthyO (lookupFm data ("name".data)) then
    let idv := (lookupFm data ("id".data)).getD .nullV
    let namev := (lookupFm data ("name".data)).getD .nullV
    some ⟨idv, namev, TASKS_DIR ++ "/".data ++ taskFolderName,
      strictNeStr idv taskFolderName, taskFolderName⟩
  else none

/-- One task folder of the tasks directory: its name, its directory listing,
and the content of task.md when present. -/
structure Folder where
  name : Str
  dirFiles : List Str
  taskMd : Option Str
deriving DecidableEq

/-- One iteration of the main loop of generateMetadata: folders without
task.md are skipped; updateTaskReferences rewrites the document; the
rewritten text is re-read and its frontmatter extracted (a thrown extraction
error is caught by the surrounding try/catch and skips the folder), then
processTaskData decides the entry. -/
def processFolder (f : Folder) : Option CatalogEntry :=
  match f.taskMd with
  | none => none
  | some content =>
    match extractFrontmatter (updateTaskReferences content f.dirFiles).content with
    | none => none
    | some data => processTaskData f.name data

/-- The tasks array accumulated over all folders, in folder order. -/
def collectTasks : List Folder → List CatalogEntry
  | [] => []
  | f :: rest =>
    match processFolder f with
    | some e => e :: collectTasks rest
    | none => collectTasks rest

/-- Keys of the idCounts object in first-insertion order (JS would place
array-index-like keys first; none of the reported scenarios use such ids, so
insertion order is the faithful model). -/
def insertKey (ks : List Str) (k : Str) : List Str :=
  if k ∈ ks then ks else ks ++ [k]

/-- Keys of idCounts, in order. -/
def objKeys (l : List Str) : List Str := l.foldl insertKey []

/-- Number of occurrences of a string in a list. -/
def countStr (k : Str) : List Str → Nat
  | [] => 0
  | x :: rest => (if x = k then 1 else 0) + countStr k rest

/-- The duplicate-id computation of generateMetadata: count every id (as an
object key), keep the ids whose count exceeds one. -/
def dupIds (tasks : List CatalogEntry) : List (Str × Nat) :=
  let ids := tasks.map (fun t => idKey t.id)
  ((objKeys ids).map (fun k => (k, countStr k ids))).filter (fun p => decide (1 < p.2))

/-- Order of the final tasks.sort using a.id.localeCompare(b.id):
localeCompare is locale-sensitive collation; it is modelled as code-unit
order (no checked property depends on the emitted order). -/
def taskLe (a b : CatalogEntry) : Prop := jsLe (idKey a.id) (idKey b.id)

instance : DecidableRel taskLe :=
  fun a b => inferInstanceAs (Decidable (jsLe (idKey a.id) (idKey b.id)))

/-- The sorted task list written to metadata.json. -/
def sortTasks (ts : List CatalogEntry) : List CatalogEntry := List.insertionSort taskLe ts

/-- Outcome of one generateMetadata run: process exit code, the two failure
reports, and the index written on success (none when the run fails before
writing). -/
structure GenOutcome where
  exitCode : Nat
  mismatchReport : List (Str × Str)
  duplicateReport : List (Str × Nat)
  metadataWritten : Option (List CatalogEntry)
deriving DecidableEq

/-- generateMetadata from scripts/generate-metadata.js over a model of the
tasks directory: accumulate entries, then fail hard on any folder/id
mismatch (reporting every mismatched folder-id pair), else fail hard on any
duplicated id (reporting every duplicate with its count), else emit the
index sorted by id. -/
def generateMetadata (folders : List Folder) : GenOutcome :=
  let tasks := collectTasks folders
  let mismatched := tasks.filter (fun t => t.folderMismatch)
  if 0 < mismatched.length then
    ⟨1, mismatched.map (fun t => (t.folderName, idKey t.id)), [], none⟩
  else
    let dups := dupIds tasks
    if 0 < dups.length then ⟨1, [], dups, none⟩
    else ⟨0, [], [], some (sortTasks tasks)⟩

/-- REQUIRED_FRONTMATTER_FIELDS from scripts/lib/constants.js. -/
def REQUIRED_FRONTMATTER_FIELDS : List Str := ["id", "name", "type"].map String.data

/-- VALID_TASK_TYPES from scripts/lib/constants.js. -/
def VALID_TASK_TYPES : List Str := ["task"].map String.data

/-- Errors recorded by the validator (blocking). The forbidden-pattern error
records the index of the matching pattern. I/O read failures are outside the
embedding (reading is modelled as always succeeding). -/
inductive VError where
  | missing_file : VError
  | frontmatter_error : VError
  | missing_field : Str → VError
  | invalid_type : YamlScalar → VError
  | missing_prompt : VError
  | forbidden_pattern : Nat → VError
deriving DecidableEq

/-- Warnings recorded by the validator (informational). -/
inductive VWarning where
  | id_mismatch : YamlScalar → VWarning
  | missing_references : VWarning
  | security_warning : Nat → VWarning
  | naming_convention : VWarning
deriving DecidableEq

/-- Validator result for one document: the errors and warnings it pushed and
the returned validity verdict. -/
structure VState where
  errors : List VError
  warnings : List VWarning
  isValid : Bool
deriving DecidableEq

/-- The required-frontmatter-field loop of validateTaskMd: a falsy field
value (absent key included) pushes a missing_field error and clears the
verdict. -/
def checkRequiredFields (data : Frontmatter) : List Str → VState → VState
  | [], s => s
  | f :: rest, s =>
    if truthyO (lookupFm data f) then checkRequiredFields data rest s
    else checkRequiredFields data rest ⟨s.errors ++ [.missing_field f], s.warnings, false⟩

/-- The forbidden-pattern loop of validateTaskMd. The fixed regex list is
abstracted as Boolean tests on the content (the spec treats the pattern
lists as injected configuration); a match pushes an error and clears the
verdict. -/
def checkForbidden (content : Str) : Nat → List (Str → Bool) → VState → VState
  | _, [], s => s
  | i, p :: rest, s =>
    if p content then
      checkForbidden content (i + 1) rest ⟨s.errors ++ [.forbidden_pattern i], s.warnings, false⟩
    else checkForbidden content (i + 1) rest s

/-- The security-pattern loop of validateTaskMd: warnings only, the verdict
is untouched. -/
def checkSecurity (content : Str) : Nat → List (Str → Bool) → VState → VState
  | _, [], s => s
  | i, p :: rest, s =>
    if p content then
      checkSecurity content (i + 1) rest ⟨s.errors, s.warnings ++ [.security_warning i], s.isValid⟩
    else checkSecurity content (i + 1) rest s

/-- data.type strictly equals a member of VALID_TASK_TYPES. -/
def isValidType (v : YamlScalar) : Bool :=
  VALID_TASK_TYPES.any (fun t => decide (v = YamlScalar.strV t))

/-- content.includes of a literal. -/
def containsStr (pat s : Str) : Bool := (splitFirst pat s).isSome

/-- validateTaskMd from the validation script. The frontmatter extraction
result is passed in (matter is the external gray-matter library; a thrown
parse error is the none case, pushing frontmatter_error and returning
false). -/
def validateTaskMd (forbidden security : List (Str → Bool))
    (taskFolderName content : Str) (fm : Option Frontmatter) : VState :=
  match fm with
  | none => ⟨[.frontmatter_error], [], false⟩
  | some data =>
    let s1 := checkRequiredFields data REQUIRED_FRONTMATTER_FIELDS ⟨[], [], true⟩
    let idv := lookupFm data ("id".data)
    let s2 :=
      if truthyO idv && strictNeStr (idv.getD .nullV) taskFolderName then
        ⟨s1.errors, s1.warnings ++ [.id_mismatch (idv.getD .nullV)], s1.isValid⟩
      else s1
    let tyv := lookupFm data ("type".data)
    let s3 :=
      if truthyO tyv && !isValidType (tyv.getD .nullV) then
        ⟨s2.errors ++ [.invalid_type (tyv.getD .nullV)], s2.warnings, false⟩
      else s2
    let s4 :=
      if containsStr ("**Prompt:**".data) content then s3
      else ⟨s3.errors ++ [.missing_prompt], s3.warnings, false⟩
    let s5 :=
      if containsStr refLabel content then s4
      else ⟨s4.errors, s4.warnings ++ [.missing_references], s4.isValid⟩
    let s6 := checkForbidden content 0 forbidden s5
    checkSecurity content 0 security s6

/-- validateTask from the validation script: a missing task.md is an error
by itself; otherwise the document content is validated. -/
def validateTask (forbidden security : List (Str → Bool)) (taskMdExists : Bool)
    (taskFolderName content : Str) (fm : Option Frontmatter) : VState :=
  if !taskMdExists then ⟨[.missing_file], [], false⟩
  else validateTaskMd forbidden security taskFolderName content fm

/-- isValidFolderName from scripts/lib/task-utils.js: the folder name must be
nonempty lowercase alphanumeric segments joined by single hyphens. -/
def isValidFolderName (folderName : Str) : Bool :=
  (splitOnChar '-' folderName).all (fun seg =>
    decide (seg ≠ []) && seg.all (fun c =>
      (decide ('a' ≤ c) && decide (c ≤ 'z')) || (decide ('0' ≤ c) && decide (c ≤ '9'))))

/-- One folder of a validation run: validateFolderName (warning only), then
validateTask, exactly as validateAll / validateChangedTasks do. -/
def validateFolderEntry (forbidden security : List (Str → Bool)) (taskMdExists : Bool)
    (taskFolderName content : Str) (fm : Option Frontmatter) : VState :=
  let w0 : List VWarning := if isValidFolderName taskFolderName then [] else [.naming_convention]
  let s := validateTask forbidden security taskMdExists taskFolderName content fm
  ⟨s.errors, w0 ++ s.warnings, s.isValid⟩

/-- The last character, if any, is not JS whitespace. -/
def lastNotWs (f : Str) : Bool :=
  match f.getLast? with
  | some c => !isJsWs c
  | none => true

/-- Hygiene of a file name under which the generated bullet parses back
exactly: no line-terminator characters, no dollar sign (dollar starts a
substitution pattern in a replacement string), no trailing whitespace. -/
def goodName (f : Str) : Bool :=
  f.all (fun c => isDotChar c && !(c = '$')) && lastNotWs f

/-- Hygiene of a URL reference: no line terminators, no trailing whitespace,
and a scheme the classifier recognizes. -/
def goodUrl (u : Str) : Bool :=
  u.all isDotChar && lastNotWs u && (httpTag.isPrefixOf u || httpsTag.isPrefixOf u)

/-- A line that cannot interrupt the lazy block: nonempty, newline-free, and
not starting with a sub-heading or bold marker. -/
def lineOk (l : Str) : Bool :=
  !l.isEmpty && l.all (fun c => !(c = '\n')) &&
  !("##".data).isPrefixOf l && !("**".data).isPrefixOf l

/-- No dollar sign anywhere. -/
def noDollar (s : Str) : Bool := s.all (fun c => !(c = '$'))

/-- Deleting a key from a frontmatter object (delete data[key]). -/
def removeKey : Frontmatter → Str → Frontmatter
  | [], _ => []
  | (k, v) :: rest, key =>
    if k = key then removeKey rest key else (k, v) :: removeKey rest key

/-- The validity verdict agrees with emptiness of the error list. -/
def validAgrees (s : VState) : Prop := s.isValid = true ↔ s.errors = []

/-! Facts about the code-unit order and sortJs. -/

theorem charToNat_inj {a b : Char} (h : a.toNat = b.toNat) : a = b := by
  apply Char.eq_of_val_eq
  apply UInt32.eq_of_toBitVec_eq
  exact BitVec.eq_of_toNat_eq h

theorem char_valid_nat (c : Char) :
    c.toNat < 55296 ∨ (57343 < c.toNat ∧ c.toNat < 1114112) := by
  simpa [Char.toNat, UInt32.isValidChar, Nat.isValidChar] using c.valid

theorem utf16Units_ne_nil (c : Char) : utf16Units c ≠ [] := by
  unfold utf16Units
  split <;> simp

theorem utf16Units_inj_append {c d : Char} {s t : List Nat}
    (h : utf16Units c ++ s = utf16Units d ++ t) : c = d ∧ s = t := by
  have hc := char_valid_nat c
  have hd := char_valid_nat d
  by_cases h1 : c.toNat < 65536 <;> by_cases h2 : d.toNat < 65536 <;>
    simp only [utf16Units, h1, h2, if_pos, if_neg, if_true, if_false,
      List.cons_append, List.nil_append, List.cons.injEq] at h
  · exact ⟨charToNat_inj h.1, h.2⟩
  · exfalso; omega
  · exfalso; omega
  · refine ⟨charToNat_inj ?_, h.2.2⟩
    omega

theorem utf16Key_cons (c : Char) (s : Str) :
    utf16Key (c :: s) = utf16Units c ++ utf16Key s := by
  simp [utf16Key]

theorem utf16Key_inj : ∀ {s t : Str}, utf16Key s = utf16Key t → s = t := by
  intro s
  induction s with
  | nil =>
    intro t h
    cases t with
    | nil => rfl
    | cons d t =>
      rw [utf16Key_cons] at h
      exact absurd h.symm (by simp [utf16Key, utf16Units_ne_nil d])
  | cons c s ih =>
    intro t h
    cases t with
    | nil =>
      rw [utf16Key_cons] at h
      exact absurd h (by simp [utf16Key, utf16Units_ne_nil c])
    | cons d t =>
      rw [utf16Key_cons, utf16Key_cons] at h
      obtain ⟨h1, h2⟩ := utf16Units_inj_append h
      rw [h1, ih h2]

theorem keyLe_total (a b : List Nat) : keyLe a b = true ∨ keyLe b a = true := by
  induction a generalizing b with
  | nil => left; rfl
  | cons x xs ih =>
    cases b with
    | nil => right; rfl
    | cons y ys =>
      rcases Nat.lt_trichotomy x y with h | h | h
      · left; simp [keyLe, h]
      · subst h
        rcases ih ys with h | h
        · left; simp [keyLe, h]
        · right; simp [keyLe, h]
      · right; simp [keyLe, h, Nat.lt_asymm h]

theorem keyLe_trans {a b c : List Nat} (hab : keyLe a b = true) (hbc : keyLe b c = true) :
    keyLe a c = true := by
  induction a generalizing b c with
  | nil => rfl
  | cons x xs ih =>
    cases b with
    | nil => simp [keyLe] at hab
    | cons y ys =>
      cases c with
      | nil => simp [keyLe] at hbc
      | cons z zs =>
        simp only [keyLe] at hab hbc ⊢
        split at hab
        · next hxy =>
          split at hbc
          · next hyz => simp [Nat.lt_trans hxy hyz]
          · next hyz =>
            split at hbc
            · exact absurd hbc (by simp)
            · next hzy =>
              have : y = z := by omega
              subst this
              simp [hxy]
        · next hxy =>
          split at hab
          · exact absurd hab (by simp)
          · next hyx =>
            have hxyeq : x = y := by omega
            subst hxyeq
            split at hbc
            · next hxz => simp [hxz]
            · next hxz =>
              split at hbc
              · exact absurd hbc (by simp)
              · next hzx =>
                have : x = z := by omega
                subst this
                simp only [Nat.lt_irrefl, if_false]
                exact ih hab hbc

theorem keyLe_antisymm {a b : List Nat} (hab : keyLe a b = true) (hba : keyLe b a = true) :
    a = b := by
  induction a generalizing b with
  | nil =>
    cases b with
    | nil => rfl
    | cons y ys => simp [keyLe] at hba
  | cons x xs ih =>
    cases b with
    | nil => simp [keyLe] at hab
    | cons y ys =>
      simp only [keyLe] at hab hba
      split at hab
      · next hxy => simp [Nat.lt_asymm hxy] at hba; omega
      · next hxy =>
        split at hab
        · exact absurd hab (by simp)
        · next hyx =>
          have hxyeq : x = y := by omega
          subst hxyeq
          simp only [Nat.lt_irrefl, if_false] at hba
          rw [ih hab hba]

instance : IsTotal Str jsLe := ⟨fun a b => keyLe_total (utf16Key a) (utf16Key b)⟩

instance : IsTrans Str jsLe := ⟨fun _ _ _ hab hbc => keyLe_trans hab hbc⟩

instance : IsAntisymm Str jsLe := ⟨fun _ _ hab hba => utf16Key_inj (keyLe_antisymm hab hba)⟩

theorem sortJs_perm (l : List Str) : (sortJs l).Perm l := List.perm_insertionSort jsLe l

theorem sortJs_sorted (l : List Str) : List.Sorted jsLe (sortJs l) :=
  List.sorted_insertionSort jsLe l

theorem sortJs_eq_of_perm {a b : List Str} (h : a.Perm b) : sortJs a = sortJs b :=
  List.eq_of_perm_of_sorted ((sortJs_perm a).trans (h.trans (sortJs_perm b).symm))
    (sortJs_sorted a) (sortJs_sorted b)

theorem perm_of_sortJs_eq {a b : List Str} (h : sortJs a = sortJs b) : a.Perm b :=
  (sortJs_perm a).symm.trans (h ▸ sortJs_perm b)

theorem sortJs_idem (l : List Str) : sortJs (sortJs l) = sortJs l :=
  List.eq_of_perm_of_sorted (sortJs_perm (sortJs l)) (sortJs_sorted (sortJs l)) (sortJs_sorted l)

/-! Facts about splitFirst: it realizes first-occurrence scanning. -/

theorem prefix_append_of_le {pat B X : Str} (h : pat.length ≤ B.length) :
    pat <+: B ++ X ↔ pat <+: B := by
  rw [List.prefix_iff_eq_take, List.prefix_iff_eq_take, List.take_append_of_le_length h]

theorem splitFirst_some_parts {pat s pre post : Str}
    (h : splitFirst pat s = some (pre, post)) :
    s = pre ++ pat ++ post ∧ ∀ i < pre.length, pat.isPrefixOf (s.drop i) = false := by
  induction s generalizing pre with
  | nil =>
    unfold splitFirst at h
    split at h
    · next hp =>
      simp only [Option.some.injEq, Prod.mk.injEq] at h
      obtain ⟨h1, h2⟩ := h
      subst h1; subst h2
      refine ⟨?_, by intro i hi; simp at hi⟩
      have : pat = [] := by simpa [List.isEmpty_iff] using hp
      simp [this]
    · exact absurd h (by simp)
  | cons c rest ih =>
    unfold splitFirst at h
    split at h
    · next hp =>
      simp only [Option.some.injEq, Prod.mk.injEq] at h
      obtain ⟨h1, h2⟩ := h
      subst h1; subst h2
      refine ⟨?_, by intro i hi; simp at hi⟩
      obtain ⟨t, ht⟩ := List.isPrefixOf_iff_prefix.mp hp
      rw [List.nil_append, ← ht, List.drop_left]
    · next hp =>
      cases hsf : splitFirst pat rest with
      | none => rw [hsf] at h; exact absurd h (by simp)
      | some pr =>
        obtain ⟨pre', post'⟩ := pr
        rw [hsf] at h
        simp only [Option.some.injEq, Prod.mk.injEq] at h
        obtain ⟨h1, h2⟩ := h
        subst h2
        obtain ⟨ih1, ih2⟩ := ih hsf
        subst h1
        constructor
        · simpa using congrArg (c :: ·) ih1
        · intro i hi
          cases i with
          | zero =>
            simpa using Bool.of_not_eq_true hp
          | succ j =>
            simp only [List.drop_succ_cons]
            refine ih2 j ?_
            simpa using Nat.lt_of_succ_lt_succ hi

theorem splitFirst_of_parts {pat pre X : Str} (hpat : pat ≠ [])
    (hmin : ∀ i < pre.length, pat.isPrefixOf ((pre ++ pat ++ X).drop i) = false) :
    splitFirst pat (pre ++ pat ++ X) = some (pre, X) := by
  induction pre with
  | nil =>
    have hpre : pat.isPrefixOf (pat ++ X) = true :=
      List.isPrefixOf_iff_prefix.mpr (List.prefix_append _ _)
    cases hc : pat ++ X with
    | nil => exact absurd (List.append_eq_nil.mp hc).1 hpat
    | cons c r =>
      rw [List.nil_append, hc]
      unfold splitFirst
      rw [if_pos (by rw [← hc]; exact hpre)]
      rw [← hc, List.drop_left]
  | cons c pre' ih =>
    have h0 : pat.isPrefixOf (c :: (pre' ++ pat ++ X)) = false := by
      have := hmin 0 (by simp)
      simpa using this
    have hmin' : ∀ i < pre'.length, pat.isPrefixOf ((pre' ++ pat ++ X).drop i) = false := by
      intro i hi
      have := hmin (i + 1) (by simp; omega)
      simpa [List.drop_succ_cons] using this
    show splitFirst pat (c :: (pre' ++ pat ++ X)) = some (c :: pre', X)
    unfold splitFirst
    rw [if_neg (by rw [h0]; exact Bool.false_ne_true), ih hmin']

theorem splitFirst_none_iff {pat s : Str} (hpat : pat ≠ []) :
    splitFirst pat s = none ↔ ∀ i, pat.isPrefixOf (s.drop i) = false := by
  induction s with
  | nil =>
    constructor
    · intro _ i
      cases pat with
      | nil => exact absurd rfl hpat
      | cons p ps => simp [List.isPrefixOf]
    · intro _
      unfold splitFirst
      rw [if_neg (by simpa [List.isEmpty_iff] using hpat)]
  | cons c rest ih =>
    unfold splitFirst
    by_cases hp : pat.isPrefixOf (c :: rest) = true
    · rw [if_pos hp]
      constructor
      · intro h; exact absurd h (by simp)
      · intro h
        have := h 0
        rw [List.drop_zero] at this
        rw [hp] at this
        exact absurd this (by simp)
    · rw [if_neg hp]
      constructor
      · intro h i
        cases i with
        | zero => simpa using Bool.of_not_eq_true hp
        | succ j =>
          simp only [List.drop_succ_cons]
          cases hsf : splitFirst pat rest with
          | none => exact (ih.mp hsf) j
          | some pr => rw [hsf] at h; exact absurd h (by simp)
      · intro h
        have hrest : splitFirst pat rest = none := by
          refine ih.mpr ?_
          intro j
          have := h (j + 1)
          simpa [List.drop_succ_cons] using this
        rw [hrest]

/-! Facts about the lookahead boundary and line splitting. -/

theorem isBoundary_cons_ne_nl {c : Char} (hc : c ≠ '\n') (rest : Str) :
    isBoundary (c :: rest) = false := by
  have e1 : ("\n\n".data) = ['\n', '\n'] := rfl
  have e2 : ("\n##".data) = ['\n', '#', '#'] := rfl
  have e3 : ("\n**".data) = ['\n', '*', '*'] := rfl
  simp [isBoundary, e1, e2, e3, List.isPrefixOf, hc, Ne.symm hc]

theorem takeUntilBoundary_boundary {t : Str} (ht : isBoundary t = true) :
    takeUntilBoundary t = [] := by
  cases t with
  | nil => rfl
  | cons c rest => simp [takeUntilBoundary, ht]

theorem takeUntilBoundary_append_noNl {b t : Str} (hb : ∀ c ∈ b, c ≠ '\n') :
    takeUntilBoundary (b ++ t) = b ++ takeUntilBoundary t := by
  induction b with
  | nil => simp
  | cons c b' ih =>
    have hc : c ≠ '\n' := hb c (by simp)
    simp only [List.cons_append, takeUntilBoundary, List.append_eq]
    rw [isBoundary_cons_ne_nl hc]
    simp only [Bool.false_eq_true, if_false]
    rw [ih (fun x hx => hb x (by simp [hx]))]

theorem takeUntilBoundary_drop_boundary (s : Str) :
    isBoundary (s.drop (takeUntilBoundary s).length) = true := by
  induction s with
  | nil => rfl
  | cons c rest ih =>
    by_cases h : isBoundary (c :: rest) = true
    · simp [takeUntilBoundary, h]
    · simp only [takeUntilBoundary, h, Bool.false_eq_true, if_false, List.length_cons,
        List.drop_succ_cons]
      exact ih

theorem takeUntilBoundary_append_drop (s : Str) :
    takeUntilBoundary s ++ s.drop (takeUntilBoundary s).length = s := by
  induction s with
  | nil => rfl
  | cons c rest ih =>
    by_cases h : isBoundary (c :: rest) = true
    · simp [takeUntilBoundary, h]
    · simp only [takeUntilBoundary, h, Bool.false_eq_true, if_false, List.length_cons,
        List.drop_succ_cons, List.cons_append]
      rw [ih]

theorem splitOnChar_ne_nil (sep : Char) (s : Str) : splitOnChar sep s ≠ [] := by
  cases s with
  | nil => simp [splitOnChar]
  | cons c rest =>
    by_cases h : c = sep
    · simp [splitOnChar, h]
    · simp only [splitOnChar, h, if_false]
      cases hr : splitOnChar sep rest with
      | nil => simp
      | cons l ls => simp

theorem splitOnNl_single {b : Str} (hb : ∀ c ∈ b, c ≠ '\n') : splitOnNl b = [b] := by
  induction b with
  | nil => rfl
  | cons c b' ih =>
    have hc : c ≠ '\n' := hb c (by simp)
    simp only [splitOnNl, splitOnChar, hc, if_false]
    have := ih (fun x hx => hb x (by simp [hx]))
    simp only [splitOnNl] at this
    rw [this]

theorem splitOnNl_append_line {b r : Str} (hb : ∀ c ∈ b, c ≠ '\n') :
    splitOnNl (b ++ '\n' :: r) = b :: splitOnNl r := by
  induction b with
  | nil => simp [splitOnNl, splitOnChar]
  | cons c b' ih =>
    have hc : c ≠ '\n' := hb c (by simp)
    simp only [List.cons_append, splitOnNl, splitOnChar, hc, if_false, List.append_eq]
    have := ih (fun x hx => hb x (by simp [hx]))
    simp only [splitOnNl] at this
    rw [this]

theorem splitOnNl_joinLines {bs : List Str} (h : ∀ b ∈ bs, ∀ c ∈ b, c ≠ '\n')
    (hne : bs ≠ []) : splitOnNl (joinLines bs) = bs := by
  induction bs with
  | nil => exact absurd rfl hne
  | cons b bs' ih =>
    cases bs' with
    | nil => exact splitOnNl_single (h b (by simp))
    | cons b2 bs'' =>
      show splitOnNl (b ++ '\n' :: joinLines (b2 :: bs'')) = b :: b2 :: bs''
      rw [splitOnNl_append_line (h b (by simp))]
      rw [ih (fun x hx => h x (by simp [hx])) (by simp)]

theorem splitOnNl_joinLines_nl {bs : List Str} (h : ∀ b ∈ bs, ∀ c ∈ b, c ≠ '\n')
    (hne : bs ≠ []) : splitOnNl (joinLines bs ++ ['\n']) = bs ++ [[]] := by
  induction bs with
  | nil => exact absurd rfl hne
  | cons b bs' ih =>
    cases bs' with
    | nil =>
      show splitOnNl (b ++ '\n' :: []) = [b, []]
      rw [splitOnNl_append_line (h b (by simp))]
      rfl
    | cons b2 bs'' =>
      show splitOnNl ((b ++ '\n' :: joinLines (b2 :: bs'')) ++ ['\n']) = b :: (b2 :: bs'') ++ [[]]
      rw [List.append_assoc, List.cons_append]
      rw [splitOnNl_append_line (h b (by simp))]
      rw [ih (fun x hx => h x (by simp [hx])) (by simp)]
      rfl

/-! Facts about trimming. -/

theorem dropWhile_head_false {p : Char → Bool} {l : Str} {c : Char}
    (h : (l.dropWhile p).head? = some c) : p c = false := by
  induction l with
  | nil => simp [List.dropWhile] at h
  | cons x rest ih =>
    by_cases hp : p x
    · rw [List.dropWhile_cons_of_pos hp] at h
      exact ih h
    · rw [List.dropWhile_cons_of_neg hp] at h
      simp only [List.head?_cons, Option.some.injEq] at h
      subst h
      exact Bool.of_not_eq_true hp

theorem dropWhile_eq_self_of_head {p : Char → Bool} {l : Str}
    (h : ∀ c, l.head? = some c → p c = false) : l.dropWhile p = l := by
  cases l with
  | nil => rfl
  | cons x rest =>
    rw [List.dropWhile_cons_of_neg]
    rw [h x rfl]
    exact Bool.false_ne_true

theorem trimEndJs_prefix (s : Str) : trimEndJs s <+: s := by
  unfold trimEndJs
  have h1 : s.reverse.dropWhile isJsWs <:+ s.reverse := List.dropWhile_suffix isJsWs
  obtain ⟨t, ht⟩ := h1
  refine ⟨t.reverse, ?_⟩
  have := congrArg List.reverse ht
  simpa using this

theorem trimEndJs_getLast_false {s : Str} {c : Char}
    (h : (trimEndJs s).getLast? = some c) : isJsWs c = false := by
  unfold trimEndJs at h
  rw [List.getLast?_reverse] at h
  exact dropWhile_head_false h

theorem trimJs_getLast_false {s : Str} {c : Char}
    (h : (trimJs s).getLast? = some c) : isJsWs c = false :=
  trimEndJs_getLast_false h

theorem trimJs_head_false {s : Str} {c : Char}
    (h : (trimJs s).head? = some c) : isJsWs c = false := by
  unfold trimJs at h
  obtain ⟨t, ht⟩ := trimEndJs_prefix (s.dropWhile isJsWs)
  cases he : trimEndJs (s.dropWhile isJsWs) with
  | nil => rw [he] at h; simp at h
  | cons d r =>
    rw [he] at h ht
    simp only [List.head?_cons, Option.some.injEq] at h
    subst h
    have hh : (s.dropWhile isJsWs).head? = some d := by rw [← ht]; rfl
    exact dropWhile_head_false hh

theorem trimJs_mem {s : Str} {c : Char} (h : c ∈ trimJs s) : c ∈ s := by
  unfold trimJs at h
  obtain ⟨t, ht⟩ := trimEndJs_prefix (s.dropWhile isJsWs)
  have h2 : c ∈ s.dropWhile isJsWs := by
    rw [← ht]
    exact List.mem_append_left t h
  exact (List.dropWhile_sublist isJsWs).mem h2

theorem trimEndJs_eq_self {s : Str} (h : ∀ c, s.getLast? = some c → isJsWs c = false) :
    trimEndJs s = s := by
  unfold trimEndJs
  rw [dropWhile_eq_self_of_head (by intro c hc; exact h c (by rwa [List.head?_reverse] at hc))]
  exact List.reverse_reverse s

theorem trimJs_eq_self {s : Str} (h1 : ∀ c, s.head? = some c → isJsWs c = false)
    (h2 : ∀ c, s.getLast? = some c → isJsWs c = false) : trimJs s = s := by
  unfold trimJs
  rw [dropWhile_eq_self_of_head h1]
  exact trimEndJs_eq_self h2

/-! Facts about the bullet-line regex and reference collection. -/

theorem goodName_dot {f : Str} (h : goodName f = true) : ∀ c ∈ f, isDotChar c = true := by
  simp only [goodName, Bool.and_eq_true, List.all_eq_true] at h
  intro c hc
  exact (h.1 c hc).1

theorem goodName_dollar {f : Str} (h : goodName f = true) : ∀ c ∈ f, c ≠ '$' := by
  simp only [goodName, Bool.and_eq_true, List.all_eq_true] at h
  intro c hc
  have := (h.1 c hc).2
  simpa using this

theorem goodName_last {f : Str} (h : goodName f = true) :
    ∀ c, f.getLast? = some c → isJsWs c = false := by
  simp only [goodName, Bool.and_eq_true] at h
  intro c hc
  have h2 := h.2
  unfold lastNotWs at h2
  rw [hc] at h2
  simpa using h2

theorem goodUrl_dot {u : Str} (h : goodUrl u = true) : ∀ c ∈ u, isDotChar c = true := by
  simp only [goodUrl, Bool.and_eq_true, List.all_eq_true] at h
  exact h.1.1

theorem goodUrl_last {u : Str} (h : goodUrl u = true) :
    ∀ c, u.getLast? = some c → isJsWs c = false := by
  simp only [goodUrl, Bool.and_eq_true] at h
  intro c hc
  have h2 := h.1.2
  unfold lastNotWs at h2
  rw [hc] at h2
  simpa using h2

theorem goodUrl_scheme {u : Str} (h : goodUrl u = true) :
    httpTag.isPrefixOf u = true ∨ httpsTag.isPrefixOf u = true := by
  simp only [goodUrl, Bool.and_eq_true, Bool.or_eq_true] at h
  exact h.2

theorem takeWhile_all {p : Char → Bool} {l : Str} (h : ∀ c ∈ l, p c = true) :
    l.takeWhile p = l := by
  induction l with
  | nil => rfl
  | cons c r ih =>
    rw [List.takeWhile_cons_of_pos (h c (by simp))]
    rw [ih (fun x hx => h x (by simp [hx]))]

theorem dashTailAt_bullet {c0 : Char} {r0 : Str}
    (hdot : ∀ c ∈ c0 :: r0, isDotChar c = true) :
    dashTailAt (' ' :: c0 :: r0) 1 = some (c0 :: r0) := by
  unfold dashTailAt
  simp only [List.drop_succ_cons, List.drop_zero]
  rw [if_pos (hdot c0 (by simp))]
  rw [takeWhile_all hdot]

theorem matchDashTail_bullet {c0 : Char} {r0 : Str}
    (hws : isJsWs c0 = false) (hdot : ∀ c ∈ c0 :: r0, isDotChar c = true) :
    matchDashTail (' ' :: c0 :: r0) = some (c0 :: r0) := by
  unfold matchDashTail
  have h1 : (' ' :: c0 :: r0).takeWhile isJsWs = [' '] := by
    rw [List.takeWhile_cons_of_pos (by decide)]
    rw [List.takeWhile_cons_of_neg (by simp [hws])]
  rw [h1]
  show dashTailGo (' ' :: c0 :: r0) (0 + 1) = some (c0 :: r0)
  unfold dashTailGo
  rw [dashTailAt_bullet hdot]

theorem dashMatch_bullet {c0 : Char} {r0 : Str}
    (hws : isJsWs c0 = false) (hdot : ∀ c ∈ c0 :: r0, isDotChar c = true) :
    dashMatch ('-' :: ' ' :: c0 :: r0) = some (c0 :: r0) := by
  unfold dashMatch
  rw [if_pos rfl, matchDashTail_bullet hws hdot]

theorem replaceFirstStr_cancel {tag f : Str} (htag : tag ≠ []) :
    replaceFirstStr tag [] (tag ++ f) = f := by
  unfold replaceFirstStr
  have hsf : splitFirst tag (([] : Str) ++ tag ++ f) = some ([], f) := by
    refine splitFirst_of_parts htag ?_
    intro i hi
    simp at hi
  rw [List.nil_append] at hsf
  rw [hsf]
  rfl

/-- Processing of one well-formed bullet line inside collectRefs reduces to
the classification of its payload. -/
theorem collectRefs_cons_line {c0 : Char} {r0 : Str} (ls : List Str)
    (hws : isJsWs c0 = false) (hdot : ∀ c ∈ c0 :: r0, isDotChar c = true)
    (hlast : ∀ c, (c0 :: r0).getLast? = some c → isJsWs c = false) :
    collectRefs (('-' :: ' ' :: c0 :: r0) :: ls) =
      (if fileTag.isPrefixOf (c0 :: r0) then
        (replaceFirstStr fileTag [] (c0 :: r0) :: (collectRefs ls).1, (collectRefs ls).2)
      else if gitFileTag.isPrefixOf (c0 :: r0) then
        (replaceFirstStr gitFileTag [] (c0 :: r0) :: (collectRefs ls).1, (collectRefs ls).2)
      else if httpTag.isPrefixOf (c0 :: r0) || httpsTag.isPrefixOf (c0 :: r0) then
        ((collectRefs ls).1, (c0 :: r0) :: (collectRefs ls).2)
      else collectRefs ls) := by
  have hlineLast : ∀ c, ('-' :: ' ' :: c0 :: r0).getLast? = some c → isJsWs c = false := by
    intro c hc
    rw [List.getLast?_cons_cons, List.getLast?_cons_cons] at hc
    exact hlast c hc
  have htrimLine : trimJs ('-' :: ' ' :: c0 :: r0) = '-' :: ' ' :: c0 :: r0 :=
    trimJs_eq_self
      (by intro c hc; simp only [List.head?_cons, Option.some.injEq] at hc; subst hc; decide)
      hlineLast
  have htrimRef : trimJs (c0 :: r0) = c0 :: r0 :=
    trimJs_eq_self
      (by intro c hc; simp only [List.head?_cons, Option.some.injEq] at hc; subst hc; exact hws)
      hlast
  simp only [collectRefs]
  rw [htrimLine]
  simp only [List.head?_cons]
  rw [if_pos trivial, dashMatch_bullet hws hdot]
  simp only [htrimRef]

theorem dotChar_ne_nl {c : Char} (h : isDotChar c = true) : c ≠ '\n' := by
  intro he
  subst he
  simp [isDotChar] at h

theorem collectRefs_cons_fileBullet {f : Str} (hf : goodName f = true) (ls : List Str) :
    collectRefs (fileBullet f :: ls) = (f :: (collectRefs ls).1, (collectRefs ls).2) := by
  have hdot := goodName_dot hf
  have hlast := goodName_last hf
  unfold fileBullet
  by_cases hd : (".diff".data).isSuffixOf f = true
  · rw [if_pos hd]
    have hshape : ("- git+file:///".data) ++ f = '-' :: ' ' :: 'g' :: ("it+file:///".data ++ f) :=
      rfl
    rw [hshape]
    have hlit : ∀ x ∈ ("it+file:///".data : Str), isDotChar x = true := by decide
    have hdot' : ∀ c ∈ 'g' :: ("it+file:///".data ++ f), isDotChar c = true := by
      intro c hc
      rcases List.mem_cons.mp hc with h | h
      · subst h; decide
      · rcases List.mem_append.mp h with h | h
        · exact hlit c h
        · exact hdot c h
    have hlast' : ∀ c, ('g' :: ("it+file:///".data ++ f)).getLast? = some c →
        isJsWs c = false := by
      intro c hc
      cases hf0 : f with
      | nil =>
        subst hf0
        simp only [List.append_nil] at hc
        have he : ('g' :: ("it+file:///".data : Str)).getLast? = some '/' := by decide
        rw [he] at hc
        injection hc with hc
        subst hc
        decide
      | cons x xs =>
        rw [show 'g' :: ("it+file:///".data ++ f) = ('g' :: "it+file:///".data) ++ f from rfl,
          List.getLast?_append_of_ne_nil _ (by rw [hf0]; simp)] at hc
        exact hlast c hc
    rw [collectRefs_cons_line ls (by decide) hdot' hlast']
    have hnofile : fileTag.isPrefixOf ('g' :: ("it+file:///".data ++ f)) = false := by
      rfl
    have hgit : gitFileTag.isPrefixOf ('g' :: ("it+file:///".data ++ f)) = true := by
      rw [show 'g' :: ("it+file:///".data ++ f) = gitFileTag ++ f from rfl]
      exact List.isPrefixOf_iff_prefix.mpr (List.prefix_append _ _)
    rw [hnofile]
    simp only [Bool.false_eq_true, if_false]
    rw [hgit]
    simp only [if_pos]
    rw [show 'g' :: ("it+file:///".data ++ f) = gitFileTag ++ f from rfl,
      replaceFirstStr_cancel (by decide)]
  · rw [if_neg hd]
    have hshape : ("- file:///".data) ++ f = '-' :: ' ' :: 'f' :: ("ile:///".data ++ f) := rfl
    rw [hshape]
    have hlit : ∀ x ∈ ("ile:///".data : Str), isDotChar x = true := by decide
    have hdot' : ∀ c ∈ 'f' :: ("ile:///".data ++ f), isDotChar c = true := by
      intro c hc
      rcases List.mem_cons.mp hc with h | h
      · subst h; decide
      · rcases List.mem_append.mp h with h | h
        · exact hlit c h
        · exact hdot c h
    have hlast' : ∀ c, ('f' :: ("ile:///".data ++ f)).getLast? = some c →
        isJsWs c = false := by
      intro c hc
      cases hf0 : f with
      | nil =>
        subst hf0
        simp only [List.append_nil] at hc
        have he : ('f' :: ("ile:///".data : Str)).getLast? = some '/' := by decide
        rw [he] at hc
        injection hc with hc
        subst hc
        decide
      | cons x xs =>
        rw [show 'f' :: ("ile:///".data ++ f) = ('f' :: "ile:///".data) ++ f from rfl,
          List.getLast?_append_of_ne_nil _ (by rw [hf0]; simp)] at hc
        exact hlast c hc
    rw [collectRefs_cons_line ls (by decide) hdot' hlast']
    have hfile : fileTag.isPrefixOf ('f' :: ("ile:///".data ++ f)) = true := by
      rw [show 'f' :: ("ile:///".data ++ f) = fileTag ++ f from rfl]
      exact List.isPrefixOf_iff_prefix.mpr (List.prefix_append _ _)
    rw [hfile]
    simp only [if_pos]
    rw [show 'f' :: ("ile:///".data ++ f) = fileTag ++ f from rfl,
      replaceFirstStr_cancel (by decide)]

theorem collectRefs_cons_urlBullet {u : Str} (hu : goodUrl u = true) (ls : List Str) :
    collectRefs (urlBullet u :: ls) = ((collectRefs ls).1, u :: (collectRefs ls).2) := by
  have hdot := goodUrl_dot hu
  have hlast := goodUrl_last hu
  have hscheme := goodUrl_scheme hu
  have hhead : ∃ t : Str, u = 'h' :: t := by
    rcases hscheme with h | h
    · obtain ⟨t, ht⟩ := List.isPrefixOf_iff_prefix.mp h
      exact ⟨"ttp://".data ++ t, by rw [← ht]; rfl⟩
    · obtain ⟨t, ht⟩ := List.isPrefixOf_iff_prefix.mp h
      exact ⟨"ttps://".data ++ t, by rw [← ht]; rfl⟩
  obtain ⟨t, ht⟩ := hhead
  subst ht
  show collectRefs (('-' :: ' ' :: 'h' :: t) :: ls) = _
  rw [collectRefs_cons_line ls (by decide) (by simpa using hdot) (by simpa using hlast)]
  have h1 : fileTag.isPrefixOf ('h' :: t) = false := rfl
  have h2 : gitFileTag.isPrefixOf ('h' :: t) = false := rfl
  rw [h1, h2]
  simp only [Bool.false_eq_true, if_false]
  have h3 : (httpTag.isPrefixOf ('h' :: t) || httpsTag.isPrefixOf ('h' :: t)) = true := by
    rcases hscheme with h | h
    · rw [h]; rfl
    · rw [h]; simp
  rw [h3]
  simp only [if_pos]

theorem collectRefs_append_files {fs : List Str} (h : ∀ f ∈ fs, goodName f = true)
    (ls : List Str) :
    collectRefs (fs.map fileBullet ++ ls) = (fs ++ (collectRefs ls).1, (collectRefs ls).2) := by
  induction fs with
  | nil => simp
  | cons f fs' ih =>
    simp only [List.map_cons, List.cons_append]
    rw [collectRefs_cons_fileBullet (h f (by simp)) _]
    rw [ih (fun x hx => h x (by simp [hx]))]

theorem collectRefs_append_urls {us : List Str} (h : ∀ u ∈ us, goodUrl u = true)
    (ls : List Str) :
    collectRefs (us.map urlBullet ++ ls) = ((collectRefs ls).1, us ++ (collectRefs ls).2) := by
  induction us with
  | nil => simp
  | cons u us' ih =>
    simp only [List.map_cons, List.cons_append]
    rw [collectRefs_cons_urlBullet (h u (by simp)) _]
    rw [ih (fun x hx => h x (by simp [hx]))]

theorem collectRefs_append_nil_line (ls : List Str) :
    collectRefs (ls ++ [[]]) = collectRefs ls := by
  induction ls with
  | nil => rfl
  | cons l rest ih => simp only [List.cons_append, collectRefs, List.append_eq, ih]

/-! Assembling the parse of a regenerated section. -/

theorem isBoundary_nl_dash {xs : Str} : isBoundary ('\n' :: '-' :: xs) = false := rfl

theorem head?_eq_cons {l : Str} {c : Char} (h : l.head? = some c) : ∃ r, l = c :: r := by
  cases l with
  | nil => simp at h
  | cons x xs =>
    simp only [List.head?_cons, Option.some.injEq] at h
    exact ⟨xs, by rw [h]⟩

theorem joinLines_head {b : Str} {bs : List Str} {c : Char} (h : b.head? = some c) :
    (joinLines (b :: bs)).head? = some c := by
  obtain ⟨r, hr⟩ := head?_eq_cons h
  subst hr
  cases bs with
  | nil => rfl
  | cons b2 bs' => rfl

theorem dropWhile_ws_nl_dash {X : Str} (h : X.head? = some '-') :
    ('\n' :: X).dropWhile isJsWs = X := by
  rw [List.dropWhile_cons_of_pos (by decide)]
  refine dropWhile_eq_self_of_head ?_
  intro c hc
  rw [h] at hc
  injection hc with hc
  subst hc
  decide

theorem takeUntil_joinLines_append {bs : List Str}
    (hb : ∀ b ∈ bs, b.head? = some '-')
    (hnl : ∀ b ∈ bs, ∀ c ∈ b, c ≠ '\n') (t : Str) :
    takeUntilBoundary (joinLines bs ++ t) = joinLines bs ++ takeUntilBoundary t := by
  induction bs with
  | nil => simp [joinLines]
  | cons b bs' ih =>
    cases bs' with
    | nil =>
      show takeUntilBoundary (b ++ t) = b ++ takeUntilBoundary t
      exact takeUntilBoundary_append_noNl (hnl b (by simp))
    | cons b2 bs'' =>
      show takeUntilBoundary ((b ++ '\n' :: joinLines (b2 :: bs'')) ++ t) =
        (b ++ '\n' :: joinLines (b2 :: bs'')) ++ takeUntilBoundary t
      rw [List.append_assoc, List.cons_append]
      rw [takeUntilBoundary_append_noNl (hnl b (by simp))]
      have hxh : (joinLines (b2 :: bs'') ++ t).head? = some '-' := by
        have hj : (joinLines (b2 :: bs'')).head? = some '-' := joinLines_head (hb b2 (by simp))
        obtain ⟨r, hr⟩ := head?_eq_cons hj
        rw [hr]
        rfl
      obtain ⟨r, hr⟩ := head?_eq_cons hxh
      have hstep : takeUntilBoundary ('\n' :: (joinLines (b2 :: bs'') ++ t)) =
          '\n' :: takeUntilBoundary (joinLines (b2 :: bs'') ++ t) := by
        rw [hr]
        show (if isBoundary ('\n' :: '-' :: r) = true then []
          else '\n' :: takeUntilBoundary ('-' :: r)) = '\n' :: takeUntilBoundary ('-' :: r)
        rw [isBoundary_nl_dash]
        simp
      rw [hstep]
      rw [ih (fun x hx => hb x (by simp [hx])) (fun x hx => hnl x (by simp [hx]))]
      simp

theorem fileBullet_head (f : Str) : (fileBullet f).head? = some '-' := by
  unfold fileBullet
  split <;> rfl

theorem urlBullet_head (u : Str) : (urlBullet u).head? = some '-' := rfl

theorem fileBullet_noNl {f : Str} (hf : goodName f = true) : ∀ c ∈ fileBullet f, c ≠ '\n' := by
  have hdot := goodName_dot hf
  have h1 : ∀ x ∈ ("- git+file:///".data : Str), x ≠ '\n' := by decide
  have h2 : ∀ x ∈ ("- file:///".data : Str), x ≠ '\n' := by decide
  intro c hc
  unfold fileBullet at hc
  split at hc <;> rcases List.mem_append.mp hc with h | h
  · exact h1 c h
  · exact dotChar_ne_nl (hdot c h)
  · exact h2 c h
  · exact dotChar_ne_nl (hdot c h)

theorem urlBullet_noNl {u : Str} (hu : goodUrl u = true) : ∀ c ∈ urlBullet u, c ≠ '\n' := by
  have hdot := goodUrl_dot hu
  intro c hc
  rcases List.mem_append.mp hc with h | h
  · revert h
    have : ∀ x ∈ ("- ".data : Str), x ≠ '\n' := by decide
    exact this c
  · exact dotChar_ne_nl (hdot c h)

/-- Parsing a document whose first label occurrence starts a freshly
generated section followed by a boundary (or nothing, or one trailing
newline) recovers exactly the sorted file list and the URL list. -/
theorem parse_generated {pre suffix : Str} {files urls : List Str}
    (hf : ∀ f ∈ files, goodName f = true)
    (hu : ∀ u ∈ urls, goodUrl u = true)
    (hpre : ∀ i < pre.length,
      refLabel.isPrefixOf
        ((pre ++ generateReferencesSection files urls ++ suffix).drop i) = false)
    (hsuf : suffix = [] ∨ suffix = ['\n'] ∨ (suffix ≠ [] ∧ isBoundary suffix = true))
    (hne : files ≠ [] ∨ urls ≠ [] ∨ suffix = [] ∨ suffix = ['\n']) :
    parseReferences (pre ++ generateReferencesSection files urls ++ suffix) =
      ⟨sortJs files, urls, true⟩ := by
  have hfs : ∀ f ∈ sortJs files, goodName f = true := by
    intro f hfm
    exact hf f ((sortJs_perm files).mem_iff.mp hfm)
  cases hbs : (sortJs files).map fileBullet ++ urls.map urlBullet with
  | nil =>
    obtain ⟨hfn, hun⟩ := List.append_eq_nil.mp hbs
    have hs0 : sortJs files = [] := List.map_eq_nil_iff.mp hfn
    have hu0 : urls = [] := List.map_eq_nil_iff.mp hun
    have hgen : generateReferencesSection files urls = refLabel := by
      unfold generateReferencesSection
      rw [hbs]
      rfl
    rw [hgen] at hpre ⊢
    have hsuf2 : suffix = [] ∨ suffix = ['\n'] := by
      rcases hne with h | h | h | h
      · exfalso
        have hl := (sortJs_perm files).length_eq
        rw [hs0] at hl
        exact h (List.length_eq_zero.mp hl.symm)
      · exact absurd hu0 h
      · left; exact h
      · right; exact h
    have hsf : splitFirst refLabel (pre ++ refLabel ++ suffix) = some (pre, suffix) :=
      splitFirst_of_parts (by decide) hpre
    unfold parseReferences sectionSplit
    rw [hsf]
    rcases hsuf2 with h | h <;> subst h <;> rw [hs0, hu0] <;> rfl
  | cons b bs' =>
    have hgen : generateReferencesSection files urls =
        refLabel ++ '\n' :: joinLines (b :: bs') := by
      unfold generateReferencesSection
      rw [hbs]
      rfl
    rw [hgen] at hpre ⊢
    have hshape : (pre ++ (refLabel ++ '\n' :: joinLines (b :: bs'))) ++ suffix
        = pre ++ refLabel ++ ('\n' :: (joinLines (b :: bs') ++ suffix)) := by
      simp [List.append_assoc]
    rw [hshape] at hpre ⊢
    have hsf : splitFirst refLabel
        (pre ++ refLabel ++ ('\n' :: (joinLines (b :: bs') ++ suffix)))
        = some (pre, '\n' :: (joinLines (b :: bs') ++ suffix)) :=
      splitFirst_of_parts (by decide) hpre
    have hmem : ∀ x ∈ b :: bs', x ∈ (sortJs files).map fileBullet ++ urls.map urlBullet := by
      rw [hbs]; exact fun x hx => hx
    have hbhead : ∀ x ∈ b :: bs', x.head? = some '-' := by
      intro x hx
      rcases List.mem_append.mp (hmem x hx) with h | h
      · obtain ⟨f, _, hfx⟩ := List.mem_map.mp h
        rw [← hfx]; exact fileBullet_head f
      · obtain ⟨u, _, hux⟩ := List.mem_map.mp h
        rw [← hux]; exact urlBullet_head u
    have hbnl : ∀ x ∈ b :: bs', ∀ c ∈ x, c ≠ '\n' := by
      intro x hx
      rcases List.mem_append.mp (hmem x hx) with h | h
      · obtain ⟨f, hfm, hfx⟩ := List.mem_map.mp h
        rw [← hfx]; exact fileBullet_noNl (hfs f hfm)
      · obtain ⟨u, hum, hux⟩ := List.mem_map.mp h
        rw [← hux]; exact urlBullet_noNl (hu u hum)
    have hjh : (joinLines (b :: bs') ++ suffix).head? = some '-' := by
      obtain ⟨r, hr⟩ := head?_eq_cons (joinLines_head (hbhead b (by simp)))
      rw [hr]; rfl
    have hbody : ('\n' :: (joinLines (b :: bs') ++ suffix)).dropWhile isJsWs
        = joinLines (b :: bs') ++ suffix := dropWhile_ws_nl_dash hjh
    have hblock : takeUntilBoundary (joinLines (b :: bs') ++ suffix)
        = joinLines (b :: bs') ++ takeUntilBoundary suffix :=
      takeUntil_joinLines_append hbhead hbnl suffix
    have hcoll : collectRefs (b :: bs') = (sortJs files, urls) := by
      rw [← hbs]
      have hcu : collectRefs (urls.map urlBullet) = ([], urls) := by
        have h0 := collectRefs_append_urls hu []
        simpa [collectRefs] using h0
      rw [collectRefs_append_files hfs _, hcu]
      simp
    unfold parseReferences sectionSplit
    rw [hsf]
    simp only [hbody, hblock]
    rcases hsuf with hsx | hsx | hsx
    · subst hsx
      simp only [takeUntilBoundary, List.append_nil]
      rw [splitOnNl_joinLines hbnl (by simp)]
      rw [hcoll]
    · subst hsx
      rw [show takeUntilBoundary ['\n'] = ['\n'] from rfl]
      rw [splitOnNl_joinLines_nl hbnl (by simp)]
      rw [collectRefs_append_nil_line]
      rw [hcoll]
    · obtain ⟨hne0, hbd⟩ := hsx
      rw [takeUntilBoundary_boundary hbd, List.append_nil]
      rw [splitOnNl_joinLines hbnl (by simp)]
      rw [hcoll]

/-! Transfer of the first-occurrence property to the rewritten document. -/

theorem isPrefixOf_window {pat A X Y : Str} {i : Nat} (hi : i + pat.length ≤ A.length) :
    pat.isPrefixOf ((A ++ X).drop i) = pat.isPrefixOf ((A ++ Y).drop i) := by
  have hiA : i ≤ A.length := by omega
  have hdx : (A ++ X).drop i = A.drop i ++ X := List.drop_append_of_le_length hiA
  have hdy : (A ++ Y).drop i = A.drop i ++ Y := List.drop_append_of_le_length hiA
  rw [hdx, hdy]
  have hlen : pat.length ≤ (A.drop i).length := by
    rw [List.length_drop]
    omega
  refine Bool.eq_iff_iff.mpr ?_
  rw [List.isPrefixOf_iff_prefix, List.isPrefixOf_iff_prefix]
  exact (prefix_append_of_le hlen).trans (prefix_append_of_le hlen).symm

theorem splitFirst_min_transfer {content pre post Y : Str}
    (h : splitFirst refLabel content = some (pre, post)) :
    ∀ i < pre.length, refLabel.isPrefixOf ((pre ++ refLabel ++ Y).drop i) = false := by
  obtain ⟨heq, hmin⟩ := splitFirst_some_parts h
  intro i hi
  have hthis := hmin i hi
  rw [heq] at hthis
  have hwin : i + refLabel.length ≤ (pre ++ refLabel).length := by
    rw [List.length_append]
    omega
  exact (isPrefixOf_window hwin).trans hthis

theorem no_label_in_prefix {content A t : Str} (hnone : splitFirst refLabel content = none)
    (hA : content = A ++ t) {i : Nat} (hp : refLabel.isPrefixOf (A.drop i) = true) : False := by
  have hnot := (splitFirst_none_iff (by decide)).mp hnone i
  rw [hA] at hnot
  by_cases hi : i ≤ A.length
  · rw [List.drop_append_of_le_length hi] at hnot
    have := List.isPrefixOf_iff_prefix.mp hp
    have h2 : refLabel <+: A.drop i ++ t := this.trans (List.prefix_append _ _)
    rw [← List.isPrefixOf_iff_prefix] at h2
    rw [h2] at hnot
    exact absurd hnot (by simp)
  · have : A.drop i = [] := by
      refine List.drop_eq_nil_of_le ?_
      omega
    rw [this] at hp
    have : refLabel.isPrefixOf ([] : Str) = false := by decide
    rw [this] at hp
    exact absurd hp (by simp)

theorem label_cross_nl {A B : Str} {i : Nat}
    (h : refLabel.isPrefixOf ((A ++ '\n' :: B).drop i) = true) :
    (i + refLabel.length ≤ A.length ∧ refLabel.isPrefixOf (A.drop i) = true) ∨
      A.length + 1 ≤ i := by
  by_cases h1 : A.length + 1 ≤ i
  · right; exact h1
  left
  have hiA : i ≤ A.length := by omega
  have hdrop : (A ++ '\n' :: B).drop i = A.drop i ++ '\n' :: B :=
    List.drop_append_of_le_length hiA
  rw [hdrop] at h
  by_cases h2 : i + refLabel.length ≤ A.length
  · refine ⟨h2, ?_⟩
    have hlen : refLabel.length ≤ (A.drop i).length := by
      rw [List.length_drop]
      omega
    have hpfx := List.isPrefixOf_iff_prefix.mp h
    rw [prefix_append_of_le hlen] at hpfx
    exact List.isPrefixOf_iff_prefix.mpr hpfx
  · exfalso
    have hp := List.isPrefixOf_iff_prefix.mp h
    rw [List.prefix_iff_eq_take, List.take_append_eq_append_take] at hp
    have hlab : refLabel.length = 15 := rfl
    have hlt : (A.drop i).length < refLabel.length := by
      rw [List.length_drop]
      omega
    have hpos : ∃ m, refLabel.length - (A.drop i).length = m + 1 :=
      ⟨refLabel.length - (A.drop i).length - 1, by omega⟩
    obtain ⟨m, hm⟩ := hpos
    have hmem : '\n' ∈ refLabel := by
      rw [hp]
      refine List.mem_append_right _ ?_
      rw [hm]
      simp
    exact absurd hmem (by decide)

/-! The replacement string is inserted literally when it has no dollar sign. -/

theorem getSubstitution_noDollar {m b a g : Str} :
    ∀ {s : Str}, noDollar s = true → getSubstitution m b a g s = s := by
  intro s
  induction s with
  | nil => intro _; rfl
  | cons c rest ih =>
    intro h
    have hc : c ≠ '$' := by
      have := (List.all_eq_true.mp h) c (by simp)
      simpa using this
    have hrest : noDollar rest = true := by
      refine List.all_eq_true.mpr ?_
      intro x hx
      exact (List.all_eq_true.mp h) x (by simp [hx])
    unfold getSubstitution
    rw [if_neg hc, ih hrest]

theorem mem_joinLines {ls : List Str} {c : Char} (h : c ∈ joinLines ls) :
    (∃ l ∈ ls, c ∈ l) ∨ c = '\n' := by
  induction ls with
  | nil => simp [joinLines] at h
  | cons l ls' ih =>
    cases ls' with
    | nil => exact Or.inl ⟨l, by simp, h⟩
    | cons l2 ls'' =>
      rcases List.mem_append.mp h with h1 | h1
      · exact Or.inl ⟨l, by simp, h1⟩
      · rcases List.mem_cons.mp h1 with h2 | h2
        · exact Or.inr h2
        · rcases ih h2 with ⟨x, hx1, hx2⟩ | h3
          · exact Or.inl ⟨x, by simp [hx1], hx2⟩
          · exact Or.inr h3

theorem noDollar_gen {files urls : List Str} (hf : ∀ f ∈ files, goodName f = true)
    (hu : ∀ u ∈ urls, noDollar u = true) :
    noDollar (generateReferencesSection files urls) = true := by
  refine List.all_eq_true.mpr ?_
  intro c hc
  suffices hne : c ≠ '$' by simpa using hne
  unfold generateReferencesSection at hc
  rcases mem_joinLines hc with ⟨l, hl, hcl⟩ | hnl
  · rcases List.mem_cons.mp hl with hlab | hrest
    · subst hlab
      intro he
      subst he
      exact absurd hcl (by decide)
    · rcases List.mem_append.mp hrest with hfm | hum
      · obtain ⟨f, hfmem, hfeq⟩ := List.mem_map.mp hfm
        have hgf : goodName f = true := hf f ((sortJs_perm files).mem_iff.mp hfmem)
        subst hfeq
        unfold fileBullet at hcl
        split at hcl <;> rcases List.mem_append.mp hcl with h | h
        · intro he; subst he; exact absurd h (by decide)
        · exact goodName_dollar hgf c h
        · intro he; subst he; exact absurd h (by decide)
        · exact goodName_dollar hgf c h
      · obtain ⟨u, humem, hueq⟩ := List.mem_map.mp hum
        subst hueq
        rcases List.mem_append.mp hcl with h | h
        · intro he; subst he; exact absurd h (by decide)
        · have := (List.all_eq_true.mp (hu u humem)) c h
          simpa using this
  · subst hnl
    decide

/-! Parsed URL references are automatically well-formed (except for dollar
signs, which trim and the dot class allow). -/

theorem lastNotWs_trimJs (s : Str) : lastNotWs (trimJs s) = true := by
  unfold lastNotWs
  cases h : (trimJs s).getLast? with
  | none => rfl
  | some c =>
    show (!isJsWs c) = true
    rw [trimJs_getLast_false h]
    rfl

theorem dashTailAt_dot {rest : Str} {k : Nat} {g : Str} (h : dashTailAt rest k = some g) :
    ∀ c ∈ g, isDotChar c = true := by
  unfold dashTailAt at h
  split at h
  · split at h
    · injection h with h
      subst h
      intro c hcm
      exact List.mem_takeWhile_imp hcm
    · exact absurd h (by simp)
  · exact absurd h (by simp)

theorem dashTailGo_dot {rest g : Str} :
    ∀ {k : Nat}, dashTailGo rest k = some g → ∀ c ∈ g, isDotChar c = true := by
  intro k
  induction k with
  | zero => intro h; exact dashTailAt_dot h
  | succ k ih =>
    intro h
    unfold dashTailGo at h
    cases hat : dashTailAt rest (k + 1) with
    | some g2 =>
      rw [hat] at h
      injection h with h
      subst h
      exact dashTailAt_dot hat
    | none =>
      rw [hat] at h
      exact ih h

theorem dashMatch_dot {line g : Str} (h : dashMatch line = some g) :
    ∀ c ∈ g, isDotChar c = true := by
  induction line with
  | nil => simp [dashMatch] at h
  | cons c0 rest ih =>
    unfold dashMatch at h
    by_cases hc : c0 = '-'
    · rw [if_pos hc] at h
      cases hmt : matchDashTail rest with
      | some g2 =>
        rw [hmt] at h
        injection h with h
        subst h
        unfold matchDashTail at hmt
        exact dashTailGo_dot hmt
      | none =>
        rw [hmt] at h
        exact ih h
    · rw [if_neg hc] at h
      exact ih h

theorem collectRefs_urls_spec : ∀ (lines : List Str) (u : Str), u ∈ (collectRefs lines).2 →
    (∀ c ∈ u, isDotChar c = true) ∧ lastNotWs u = true ∧
    (httpTag.isPrefixOf u || httpsTag.isPrefixOf u) = true := by
  intro lines
  induction lines with
  | nil => intro u hu; simp [collectRefs] at hu
  | cons line rest ih =>
    intro u hu
    simp only [collectRefs] at hu
    split at hu
    · split at hu
      · exact ih u hu
      · next g heq =>
        split at hu
        · exact ih u hu
        · split at hu
          · exact ih u hu
          · split at hu
            · next h4 =>
              rcases List.mem_cons.mp hu with he | he
              · subst he
                refine ⟨?_, lastNotWs_trimJs g, h4⟩
                intro c hc
                exact dashMatch_dot heq c (trimJs_mem hc)
              · exact ih u he
            · exact ih u hu
    · exact ih u hu

theorem parsed_urls_good {content : Str} :
    ∀ u ∈ (parseReferences content).urlRefs, goodUrl u = true := by
  intro u hum
  have hspec : (∀ c ∈ u, isDotChar c = true) ∧ lastNotWs u = true ∧
      (httpTag.isPrefixOf u || httpsTag.isPrefixOf u) = true := by
    unfold parseReferences at hum
    cases hs : sectionSplit content with
    | none => rw [hs] at hum; simp at hum
    | some q =>
      obtain ⟨a, w, block, d⟩ := q
      rw [hs] at hum
      simp only at hum
      exact collectRefs_urls_spec (splitOnNl block) u hum
  obtain ⟨h1, h2, h3⟩ := hspec
  unfold goodUrl
  rw [List.all_eq_true.mpr h1, h2, h3]
  rfl

theorem gen_head (files urls : List Str) :
    ∃ tail, generateReferencesSection files urls = refLabel ++ tail := by
  unfold generateReferencesSection
  cases h : (sortJs files).map fileBullet ++ urls.map urlBullet with
  | nil =>
    refine ⟨[], ?_⟩
    simp [joinLines]
  | cons b bs =>
    exact ⟨'\n' :: joinLines (b :: bs), rfl⟩

/-- After a regenerating run of updateTaskReferences (the unchanged guard is
false), the rewritten document parses to exactly the sorted eligible files
and the original URL references, with the section present. -/
theorem regen_parse {content : Str} {folderFiles : List Str}
    (hf : ∀ f ∈ getTaskFiles folderFiles, goodName f = true)
    (hud : ∀ u ∈ (parseReferences content).urlRefs, noDollar u = true)
    (hne : (parseReferences content).hasReferencesSection = true →
      getTaskFiles folderFiles ≠ [] ∨ (parseReferences content).urlRefs ≠ [])
    (hguard : (referencesMatch (parseReferences content).fileRefs (getTaskFiles folderFiles) &&
      (parseReferences content).hasReferencesSection) = false) :
    parseReferences (updateTaskReferences content folderFiles).content =
      ⟨sortJs (getTaskFiles folderFiles), (parseReferences content).urlRefs, true⟩ := by
  have hug := @parsed_urls_good content
  have hnd : noDollar (generateReferencesSection (getTaskFiles folderFiles)
      (parseReferences content).urlRefs) = true := by
    refine noDollar_gen hf ?_
    exact hud
  simp only [updateTaskReferences, hguard, Bool.false_eq_true, if_false]
  by_cases hsec : (parseReferences content).hasReferencesSection = true
  · rw [if_pos hsec]
    cases hsf : splitFirst refLabel content with
    | none =>
      exfalso
      unfold parseReferences sectionSplit at hsec
      rw [hsf] at hsec
      simp at hsec
    | some pq =>
      obtain ⟨pre, post⟩ := pq
      have hss : sectionSplit content = some (pre, post.takeWhile isJsWs,
          takeUntilBoundary (post.dropWhile isJsWs),
          (post.dropWhile isJsWs).drop (takeUntilBoundary (post.dropWhile isJsWs)).length) := by
        unfold sectionSplit
        rw [hsf]
      unfold replaceFirstSection
      rw [hss]
      simp only [getSubstitution_noDollar hnd]
      set aft := (post.dropWhile isJsWs).drop
        (takeUntilBoundary (post.dropWhile isJsWs)).length with haft
      have hbd : isBoundary aft = true := by
        rw [haft]
        exact takeUntilBoundary_drop_boundary (post.dropWhile isJsWs)
      refine parse_generated hf hug ?_ ?_ ?_
      · intro i hi
        obtain ⟨tail, htail⟩ :=
          gen_head (getTaskFiles folderFiles) (parseReferences content).urlRefs
        have hshape : pre ++ generateReferencesSection (getTaskFiles folderFiles)
            (parseReferences content).urlRefs ++ aft = pre ++ refLabel ++ (tail ++ aft) := by
          rw [htail]
          simp [List.append_assoc]
        rw [hshape]
        exact splitFirst_min_transfer hsf i hi
      · by_cases hae : aft = []
        · exact Or.inl hae
        · exact Or.inr (Or.inr ⟨hae, hbd⟩)
      · have hrm : referencesMatch (parseReferences content).fileRefs
            (getTaskFiles folderFiles) = false := by
          rw [hsec, Bool.and_true] at hguard
          exact hguard
        rcases hne hsec with h | h
        · exact Or.inl h
        · exact Or.inr (Or.inl h)
  · rw [if_neg hsec]
    have hnone : splitFirst refLabel content = none := by
      cases hsf : splitFirst refLabel content with
      | none => rfl
      | some pq =>
        exfalso
        obtain ⟨pre, post⟩ := pq
        refine hsec ?_
        unfold parseReferences sectionSplit
        rw [hsf]
    refine parse_generated hf hug ?_ (Or.inr (Or.inl rfl)) (Or.inr (Or.inr (Or.inr rfl)))
    intro i hi
    set pre := trimEndJs content ++ "\n\n".data with hpredef
    rw [List.length_append] at hi
    by_cases hocc : refLabel.isPrefixOf ((pre ++ generateReferencesSection
        (getTaskFiles folderFiles) (parseReferences content).urlRefs ++ ['\n']).drop i) = true
    · exfalso
      have hshape : pre ++ generateReferencesSection (getTaskFiles folderFiles)
          (parseReferences content).urlRefs ++ ['\n'] = trimEndJs content ++ '\n' ::
          ('\n' :: (generateReferencesSection (getTaskFiles folderFiles)
            (parseReferences content).urlRefs ++ ['\n'])) := by
        rw [hpredef]
        simp [List.append_assoc]
      rw [hshape] at hocc
      rcases label_cross_nl hocc with ⟨hle, hin⟩ | hge
      · obtain ⟨t, ht⟩ := trimEndJs_prefix content
        exact no_label_in_prefix hnone ht.symm hin
      · have hi2 : i = (trimEndJs content).length + 1 := by
          have hnn : (("\n\n".data : Str)).length = 2 := rfl
          rw [hnn] at hi
          omega
        subst hi2
        have hshape2 : trimEndJs content ++ '\n' ::
            ('\n' :: (generateReferencesSection (getTaskFiles folderFiles)
              (parseReferences content).urlRefs ++ ['\n'])) =
            (trimEndJs content ++ ['\n']) ++ '\n' ::
            (generateReferencesSection (getTaskFiles folderFiles)
              (parseReferences content).urlRefs ++ ['\n']) := by
          simp [List.append_assoc]
        rw [hshape2] at hocc
        rcases label_cross_nl hocc with ⟨hle2, _⟩ | hge2
        · rw [List.length_append] at hle2
          have h15 : refLabel.length = 15 := rfl
          have h1 : ((['\n'] : Str)).length = 1 := rfl
          omega
        · rw [List.length_append] at hge2
          have h1 : ((['\n'] : Str)).length = 1 := rfl
          omega
    · exact Bool.of_not_eq_true hocc

/-! Block cutting for arbitrary well-formed lines (heading level matters). -/

theorem lineOk_parts {g : Str} (h : lineOk g = true) :
    g ≠ [] ∧ (∀ c ∈ g, c ≠ '\n') ∧
    ("##".data).isPrefixOf g = false ∧ ("**".data).isPrefixOf g = false := by
  simp only [lineOk, Bool.and_eq_true, List.all_eq_true, Bool.not_eq_true'] at h
  obtain ⟨⟨⟨h1, h2⟩, h3⟩, h4⟩ := h
  refine ⟨?_, ?_, h3, h4⟩
  · intro he
    rw [he] at h1
    exact absurd h1 (by simp)
  · intro c hc
    have := h2 c hc
    simpa using this

theorem isBoundary_head {s : Str} (hne : s ≠ []) (hb : isBoundary s = true) :
    s.head? = some '\n' := by
  cases s with
  | nil => exact absurd rfl hne
  | cons c rest =>
    by_cases hc : c = '\n'
    · rw [hc]; rfl
    · rw [isBoundary_cons_ne_nl hc] at hb
      exact absurd hb (by simp)

theorem isBoundary_true_cases {s : Str} (h : isBoundary s = true) :
    s = [] ∨ ("\n\n".data).isPrefixOf s = true ∨ ("\n##".data).isPrefixOf s = true ∨
      ("\n**".data).isPrefixOf s = true := by
  simp only [isBoundary, Bool.or_eq_true, List.isEmpty_iff] at h
  tauto

theorem isBoundary_nl_lineOk {g X : Str} (hok : lineOk g = true)
    (hX : X = [] ∨ X.head? = some '\n') :
    isBoundary ('\n' :: (g ++ X)) = false := by
  obtain ⟨hne, hnl, h2, h3⟩ := lineOk_parts hok
  obtain ⟨d, g', hg⟩ : ∃ d g', g = d :: g' := by
    cases g with
    | nil => exact absurd rfl hne
    | cons d g' => exact ⟨d, g', rfl⟩
  subst hg
  by_cases hb : isBoundary ('\n' :: ((d :: g') ++ X)) = true
  · exfalso
    rcases isBoundary_true_cases hb with h | h | h | h
    · exact absurd h (by simp)
    · obtain ⟨t, ht⟩ := List.isPrefixOf_iff_prefix.mp h
      have he : '\n' = d := by
        have := congrArg (fun l => l.get? 1) ht
        simpa using this
      exact (hnl d (by simp)) he.symm
    · obtain ⟨t, ht⟩ := List.isPrefixOf_iff_prefix.mp h
      simp only [List.cons_append, List.append_eq, List.cons.injEq] at ht
      obtain ⟨-, hd, htail⟩ := ht
      subst hd
      cases g' with
      | nil =>
        simp only [List.nil_append] at htail
        rcases hX with hx | hx
        · rw [← htail] at hx
          exact absurd hx (by simp)
        · rw [← htail] at hx
          simp at hx
      | cons e g'' =>
        have he : e = '#' := by
          have := congrArg (fun l => l.head?) htail
          simpa using this.symm
        subst he
        have : ("##".data).isPrefixOf ('#' :: '#' :: g'') = true :=
          List.isPrefixOf_iff_prefix.mpr ⟨g'', rfl⟩
        rw [this] at h2
        exact absurd h2 (by simp)
    · obtain ⟨t, ht⟩ := List.isPrefixOf_iff_prefix.mp h
      simp only [List.cons_append, List.append_eq, List.cons.injEq] at ht
      obtain ⟨-, hd, htail⟩ := ht
      subst hd
      cases g' with
      | nil =>
        simp only [List.nil_append] at htail
        rcases hX with hx | hx
        · rw [← htail] at hx
          exact absurd hx (by simp)
        · rw [← htail] at hx
          simp at hx
      | cons e g'' =>
        have he : e = '*' := by
          have := congrArg (fun l => l.head?) htail
          simpa using this.symm
        subst he
        have : ("**".data).isPrefixOf ('*' :: '*' :: g'') = true :=
          List.isPrefixOf_iff_prefix.mpr ⟨g'', rfl⟩
        rw [this] at h3
        exact absurd h3 (by simp)
  · exact Bool.of_not_eq_true hb

theorem takeUntil_joinLines_ok {gs : List Str} (hok : ∀ g ∈ gs, lineOk g = true)
    {t : Str} (ht : t = [] ∨ (t ≠ [] ∧ isBoundary t = true)) :
    takeUntilBoundary (joinLines gs ++ t) = joinLines gs ++ takeUntilBoundary t := by
  have htX : t = [] ∨ t.head? = some '\n' := by
    rcases ht with h | ⟨h1, h2⟩
    · exact Or.inl h
    · exact Or.inr (isBoundary_head h1 h2)
  induction gs with
  | nil => simp [joinLines]
  | cons g gs' ih =>
    cases gs' with
    | nil =>
      show takeUntilBoundary (g ++ t) = g ++ takeUntilBoundary t
      exact takeUntilBoundary_append_noNl (lineOk_parts (hok g (by simp))).2.1
    | cons g2 gs'' =>
      show takeUntilBoundary ((g ++ '\n' :: joinLines (g2 :: gs'')) ++ t) =
        (g ++ '\n' :: joinLines (g2 :: gs'')) ++ takeUntilBoundary t
      rw [List.append_assoc, List.cons_append]
      rw [takeUntilBoundary_append_noNl (lineOk_parts (hok g (by simp))).2.1]
      have hg2ok := hok g2 (by simp)
      have hg2ne := (lineOk_parts hg2ok).1
      obtain ⟨d2, g2', hg2⟩ : ∃ d g', g2 = d :: g' := by
        cases g2 with
        | nil => exact absurd rfl hg2ne
        | cons d g' => exact ⟨d, g', rfl⟩
      have hjshape : joinLines (g2 :: gs'') ++ t = g2 ++
          ((if gs'' = [] then [] else '\n' :: joinLines gs'') ++ t) := by
        cases gs'' with
        | nil => simp [joinLines]
        | cons g3 gs3 =>
          show joinLines (g2 :: g3 :: gs3) ++ t = g2 ++ ('\n' :: joinLines (g3 :: gs3) ++ t)
          rw [show joinLines (g2 :: g3 :: gs3) = g2 ++ '\n' :: joinLines (g3 :: gs3) from rfl]
          simp [List.append_assoc]
      have hXcond : ((if gs'' = [] then [] else '\n' :: joinLines gs'') ++ t) = [] ∨
          ((if gs'' = [] then ([] : Str) else '\n' :: joinLines gs'') ++ t).head? = some '\n' := by
        cases gs'' with
        | nil =>
          simp only [if_pos rfl, List.nil_append]
          exact htX
        | cons g3 gs3 =>
          right
          rw [if_neg (by simp)]
          rfl
      have hnb : isBoundary ('\n' :: (joinLines (g2 :: gs'') ++ t)) = false := by
        rw [hjshape]
        exact isBoundary_nl_lineOk hg2ok hXcond
      have hstep : takeUntilBoundary ('\n' :: (joinLines (g2 :: gs'') ++ t)) =
          '\n' :: takeUntilBoundary (joinLines (g2 :: gs'') ++ t) := by
        show (if isBoundary ('\n' :: (joinLines (g2 :: gs'') ++ t)) = true then []
          else '\n' :: takeUntilBoundary (joinLines (g2 :: gs'') ++ t)) =
          '\n' :: takeUntilBoundary (joinLines (g2 :: gs'') ++ t)
        rw [hnb]
        simp
      rw [hstep]
      rw [ih (fun x hx => hok x (by simp [hx]))]
      simp

theorem dropWhile_ws_nl_head {X : Str} {c : Char} (h : X.head? = some c)
    (hc : isJsWs c = false) : ('\n' :: X).dropWhile isJsWs = X := by
  rw [List.dropWhile_cons_of_pos (by decide)]
  refine dropWhile_eq_self_of_head ?_
  intro x hx
  rw [h] at hx
  injection hx with hx
  subst hx
  exact hc

/-! Claim theorems. -/

theorem updateTaskReferences_guard_true (content : Str) (ff : List Str)
    (hguard : (referencesMatch (parseReferences content).fileRefs (getTaskFiles ff) &&
      (parseReferences content).hasReferencesSection) = true) :
    updateTaskReferences content ff =
      ⟨false, content, getTaskFiles ff, [], []⟩ := by
  simp only [updateTaskReferences]
  rw [if_pos hguard]

/-- C3 (counterexample): a document whose References section repeats a file
name has the same file-reference set as the folder, and the section is
present, yet updateTaskReferences reports a change — referencesMatch compares
sorted lists (multisets), not sets, so the claim fails as stated. -/
theorem C3_counterexample :
    (parseReferences ("**References:**\n- file:///a.json\n- file:///a.json".data)).fileRefs.toFinset
      = (getTaskFiles ["a.json".data, "task.md".data]).toFinset ∧
    (parseReferences
      ("**References:**\n- file:///a.json\n- file:///a.json".data)).hasReferencesSection = true ∧
    (updateTaskReferences ("**References:**\n- file:///a.json\n- file:///a.json".data)
      ["a.json".data, "task.md".data]).updated = true := by decide

/-- C3 (amended): updateTaskReferences returns the document unchanged with
updated = false whenever the parsed file-reference list is multiset-equal (a
permutation) to the eligible file list and a References section is present.
Set equality is not enough: a document repeating a file name is regenerated. -/
theorem C3_synchronize_unchanged (content : Str) (folderFiles : List Str)
    (hperm : (parseReferences content).fileRefs.Perm (getTaskFiles folderFiles))
    (hsec : (parseReferences content).hasReferencesSection = true) :
    (updateTaskReferences content folderFiles).updated = false ∧
    (updateTaskReferences content folderFiles).content = content := by
  have hm : referencesMatch (parseReferences content).fileRefs
      (getTaskFiles folderFiles) = true := by
    unfold referencesMatch
    rw [sortJs_eq_of_perm hperm]
    simp
  have hguard : (referencesMatch (parseReferences content).fileRefs (getTaskFiles folderFiles) &&
      (parseReferences content).hasReferencesSection) = true := by
    rw [hm, hsec]
    rfl
  constructor
  · simp only [updateTaskReferences]
    rw [if_pos hguard]
  · simp only [updateTaskReferences]
    rw [if_pos hguard]

/-- C3 (witness). -/
theorem C3_witness :
    (updateTaskReferences ("**References:**\n- file:///a.json".data)
      ["a.json".data, "task.md".data]).updated = false ∧
    (updateTaskReferences ("**References:**\n- file:///a.json".data)
      ["a.json".data, "task.md".data]).content =
      ("**References:**\n- file:///a.json".data) :=
  C3_synchronize_unchanged _ _ (by decide) (by decide)

/-- C4 (counterexample): a level-one Markdown heading between two bullets
does not end collection — the lookahead only recognizes two hash marks — so
the bullet after the heading is still collected, contrary to the claim that
a heading of any level ends the block. -/
theorem C4_counterexample :
    (parseReferences
      ("**References:**\n- file:///a.txt\n# Heading\n- file:///b.txt".data)).fileRefs
      = ["a.txt".data, "b.txt".data] ∧
    (["a.txt".data, "b.txt".data] : List Str) ≠ ["a.txt".data] := by decide

/-- C4 (amended): collection after the first label runs over exactly the
following lines — arbitrary well-formed lines, including level-one headings —
and ends at the first blank line, heading of level at least two, bold
marker, or end of text; the collected references are the classification of
exactly those lines. -/
theorem C4_block_collection (pre : Str) (gs : List Str) (t : Str) (c0 : Char) (g0 : Str)
    (hg0 : gs.head? = some (c0 :: g0)) (hc0 : isJsWs c0 = false)
    (hok : ∀ g ∈ gs, lineOk g = true)
    (hsplit : splitFirst refLabel (pre ++ refLabel ++ ('\n' :: (joinLines gs ++ t)))
        = some (pre, '\n' :: (joinLines gs ++ t)))
    (ht : t = [] ∨ (t ≠ [] ∧ isBoundary t = true)) :
    parseReferences (pre ++ refLabel ++ ('\n' :: (joinLines gs ++ t))) =
      ⟨(collectRefs gs).1, (collectRefs gs).2, true⟩ := by
  have hgs_ne : gs ≠ [] := by
    intro he
    rw [he] at hg0
    simp at hg0
  have hjh : (joinLines gs ++ t).head? = some c0 := by
    obtain ⟨g1, gs', hgse⟩ : ∃ g1 gs', gs = g1 :: gs' := by
      cases gs with
      | nil => exact absurd rfl hgs_ne
      | cons g1 gs' => exact ⟨g1, gs', rfl⟩
    subst hgse
    simp only [List.head?_cons, Option.some.injEq] at hg0
    subst hg0
    have hj : (joinLines ((c0 :: g0) :: gs')).head? = some c0 := joinLines_head rfl
    obtain ⟨r, hr⟩ := head?_eq_cons hj
    rw [hr]
    rfl
  have hbody : ('\n' :: (joinLines gs ++ t)).dropWhile isJsWs = joinLines gs ++ t :=
    dropWhile_ws_nl_head hjh hc0
  have hnl : ∀ g ∈ gs, ∀ c ∈ g, c ≠ '\n' := fun g hg => (lineOk_parts (hok g hg)).2.1
  unfold parseReferences sectionSplit
  rw [hsplit]
  simp only [hbody]
  rw [takeUntil_joinLines_ok hok ht]
  rcases ht with ht0 | ⟨htn, htb⟩
  · subst ht0
    simp only [takeUntilBoundary, List.append_nil]
    rw [splitOnNl_joinLines hnl hgs_ne]
  · rw [takeUntilBoundary_boundary htb, List.append_nil]
    rw [splitOnNl_joinLines hnl hgs_ne]

/-- C4 (witness): a run with a bullet, a level-one heading line, and a URL
bullet before a blank-line terminator. -/
theorem C4_witness :
    parseReferences (("Intro.\n".data) ++ refLabel ++ ('\n' :: (joinLines
      ["- file:///a.txt".data, "# note".data, "- https://example.org".data] ++
      ("\n\nTail".data)))) =
      ⟨(collectRefs ["- file:///a.txt".data, "# note".data, "- https://example.org".data]).1,
       (collectRefs ["- file:///a.txt".data, "# note".data, "- https://example.org".data]).2,
       true⟩ :=
  C4_block_collection ("Intro.\n".data)
    ["- file:///a.txt".data, "# note".data, "- https://example.org".data]
    ("\n\nTail".data) '-' (" file:///a.txt".data)
    (by decide) (by decide) (by decide) (by decide) (by decide)

/-- C5 (counterexample): a folder with no eligible files and a document whose
stale section is followed by a blank line and a stray bullet: after
synchronization the replaced section is just the bare label, the greedy
whitespace of the regex then skips the blank line, and the stray bullet is
parsed back — the parsed set differs from the (empty) eligible set. -/
theorem C5_counterexample :
    getTaskFiles ["task.md".data] = [] ∧
    (parseReferences (updateTaskReferences
      ("**References:**\n- file:///gone.txt\n\n- file:///stray.txt\n".data)
      ["task.md".data]).content).fileRefs = ["stray.txt".data] := by decide

/-- C5 (amended): after updateTaskReferences, the parsed file-reference list
is a permutation of the eligible file list, provided the eligible names are
hygienic (no line terminators, no dollar signs, no trailing whitespace), the
document's URL references contain no dollar signs, and — when a section is
present — the regenerated section is nonempty (some eligible file or some URL
reference). -/
theorem C5_postcondition (content : Str) (folderFiles : List Str)
    (hf : ∀ f ∈ getTaskFiles folderFiles, goodName f = true)
    (hud : ∀ u ∈ (parseReferences content).urlRefs, noDollar u = true)
    (hne : (parseReferences content).hasReferencesSection = true →
      getTaskFiles folderFiles ≠ [] ∨ (parseReferences content).urlRefs ≠ []) :
    (parseReferences (updateTaskReferences content folderFiles).content).fileRefs.Perm
      (getTaskFiles folderFiles) := by
  by_cases hguard : (referencesMatch (parseReferences content).fileRefs
      (getTaskFiles folderFiles) && (parseReferences content).hasReferencesSection) = true
  · have hcontent : (updateTaskReferences content folderFiles).content = content := by
      simp only [updateTaskReferences]
      rw [if_pos hguard]
    rw [hcontent]
    have hm := ((Bool.and_eq_true _ _).mp hguard).1
    unfold referencesMatch at hm
    exact perm_of_sortJs_eq (of_decide_eq_true hm)
  · have hp := regen_parse hf hud hne (Bool.of_not_eq_true hguard)
    rw [hp]
    exact sortJs_perm _

/-- C5 (witness). -/
theorem C5_witness :
    (parseReferences (updateTaskReferences ("**References:**\n- file:///old.txt".data)
      ["a.json".data, "task.md".data]).content).fileRefs.Perm
      (getTaskFiles ["a.json".data, "task.md".data]) :=
  C5_postcondition _ _ (by decide) (by decide) (by decide)

/-- C7 (counterexample): a second synchronization immediately after a first
one can report a change and alter the text again: the first run leaves a bare
label followed by a blank line and a stray bullet, which the second run
parses as a stale reference and rewrites. -/
theorem C7_counterexample :
    (updateTaskReferences (updateTaskReferences
      ("**References:**\n- file:///absent.txt\n\n- file:///extra.txt\n".data)
      ["task.md".data]).content ["task.md".data]).updated = true ∧
    (updateTaskReferences (updateTaskReferences
      ("**References:**\n- file:///absent.txt\n\n- file:///extra.txt\n".data)
      ["task.md".data]).content ["task.md".data]).content ≠
    (updateTaskReferences
      ("**References:**\n- file:///absent.txt\n\n- file:///extra.txt\n".data)
      ["task.md".data]).content := by decide

/-- C7 (amended): under the same hygiene and nonemptiness conditions as the
synchronization post-condition, a second run right after a first run reports
no change and leaves the text identical. -/
theorem C7_idempotent (content : Str) (folderFiles : List Str)
    (hf : ∀ f ∈ getTaskFiles folderFiles, goodName f = true)
    (hud : ∀ u ∈ (parseReferences content).urlRefs, noDollar u = true)
    (hne : (parseReferences content).hasReferencesSection = true →
      getTaskFiles folderFiles ≠ [] ∨ (parseReferences content).urlRefs ≠ []) :
    (updateTaskReferences (updateTaskReferences content folderFiles).content
      folderFiles).updated = false ∧
    (updateTaskReferences (updateTaskReferences content folderFiles).content
      folderFiles).content = (updateTaskReferences content folderFiles).content := by
  by_cases hguard : (referencesMatch (parseReferences content).fileRefs
      (getTaskFiles folderFiles) && (parseReferences content).hasReferencesSection) = true
  · have hu1 : updateTaskReferences content folderFiles =
        ⟨false, content, getTaskFiles folderFiles, [], []⟩ :=
      updateTaskReferences_guard_true _ _ hguard
    have hcontent : (updateTaskReferences content folderFiles).content = content := by
      rw [hu1]
    rw [hcontent, hu1]
    exact ⟨rfl, rfl⟩
  · have hp := regen_parse hf hud hne (Bool.of_not_eq_true hguard)
    have hm2 : referencesMatch
        (parseReferences (updateTaskReferences content folderFiles).content).fileRefs
        (getTaskFiles folderFiles) = true := by
      rw [hp]
      unfold referencesMatch
      rw [show (⟨sortJs (getTaskFiles folderFiles), (parseReferences content).urlRefs,
        true⟩ : ParseResult).fileRefs = sortJs (getTaskFiles folderFiles) from rfl]
      rw [sortJs_idem]
      simp
    have hs2 : (parseReferences
        (updateTaskReferences content folderFiles).content).hasReferencesSection = true := by
      rw [hp]
    have hguard2 : (referencesMatch
        (parseReferences (updateTaskReferences content folderFiles).content).fileRefs
        (getTaskFiles folderFiles) &&
        (parseReferences
          (updateTaskReferences content folderFiles).content).hasReferencesSection) = true := by
      rw [hm2, hs2]
      rfl
    have hu2 : updateTaskReferences (updateTaskReferences content folderFiles).content
        folderFiles = ⟨false, (updateTaskReferences content folderFiles).content,
          getTaskFiles folderFiles, [], []⟩ :=
      updateTaskReferences_guard_true _ _ hguard2
    rw [hu2]
    exact ⟨rfl, rfl⟩

/-- C7 (witness). -/
theorem C7_witness :
    (updateTaskReferences (updateTaskReferences
      ("**References:**\n- file:///old2.txt".data) ["b.yaml".data, "task.md".data]).content
      ["b.yaml".data, "task.md".data]).updated = false ∧
    (updateTaskReferences (updateTaskReferences
      ("**References:**\n- file:///old2.txt".data) ["b.yaml".data, "task.md".data]).content
      ["b.yaml".data, "task.md".data]).content = (updateTaskReferences
      ("**References:**\n- file:///old2.txt".data) ["b.yaml".data, "task.md".data]).content :=
  C7_idempotent _ _ (by decide) (by decide) (by decide)

/-- C6 (counterexample): an eligible file name with trailing whitespace is
trimmed on the way back, and a URL with an unrecognized scheme is silently
dropped, so the round trip fails as stated. -/
theorem C6_counterexample :
    getTaskFiles ["x.template ".data, "task.md".data] = ["x.template ".data] ∧
    (parseReferences (generateReferencesSection ["x.template ".data]
      ["ftp://example.org".data])).fileRefs.toFinset ≠
      (["x.template ".data] : List Str).toFinset ∧
    (parseReferences (generateReferencesSection ["x.template ".data]
      ["ftp://example.org".data])).urlRefs ≠ ["ftp://example.org".data] := by decide

/-- C6 (amended): for file names with no line terminators, no dollar signs
and no trailing whitespace, and URLs that are hygienic and carry a recognized
http or https scheme, parsing the generated section recovers the file list up
to permutation (order-insensitive) and the URL list exactly, in order. -/
theorem C6_roundtrip (files urls : List Str)
    (hf : ∀ f ∈ files, goodName f = true)
    (hu : ∀ u ∈ urls, goodUrl u = true) :
    (parseReferences (generateReferencesSection files urls)).fileRefs.Perm files ∧
    (parseReferences (generateReferencesSection files urls)).urlRefs = urls := by
  have h : parseReferences (([] : Str) ++ generateReferencesSection files urls ++ ([] : Str)) =
      ⟨sortJs files, urls, true⟩ :=
    parse_generated hf hu (by intro i hi; simp at hi) (Or.inl rfl)
      (Or.inr (Or.inr (Or.inl rfl)))
  rw [List.nil_append, List.append_nil] at h
  rw [h]
  exact ⟨sortJs_perm files, rfl⟩

/-- C6 (witness). -/
theorem C6_witness :
    (parseReferences (generateReferencesSection ["b.diff".data, "a.json".data]
      ["https://example.org".data])).fileRefs.Perm ["b.diff".data, "a.json".data] ∧
    (parseReferences (generateReferencesSection ["b.diff".data, "a.json".data]
      ["https://example.org".data])).urlRefs = ["https://example.org".data] :=
  C6_roundtrip _ _ (by decide) (by decide)

/-! Validator stage lemmas. -/

theorem checkRequiredFields_inv (data : Frontmatter) (fs : List Str) (s : VState)
    (hs : validAgrees s) : validAgrees (checkRequiredFields data fs s) := by
  induction fs generalizing s with
  | nil => exact hs
  | cons f rest ih =>
    simp only [checkRequiredFields]
    split
    · exact ih _ hs
    · refine ih _ ?_
      simp [validAgrees]

theorem checkForbidden_inv (content : Str) (i : Nat) (ps : List (Str → Bool)) (s : VState)
    (hs : validAgrees s) : validAgrees (checkForbidden content i ps s) := by
  induction ps generalizing i s with
  | nil => exact hs
  | cons p rest ih =>
    simp only [checkForbidden]
    split
    · refine ih _ _ ?_
      simp [validAgrees]
    · exact ih _ _ hs

theorem checkSecurity_fields (content : Str) (i : Nat) (ps : List (Str → Bool)) (s : VState) :
    (checkSecurity content i ps s).errors = s.errors ∧
    (checkSecurity content i ps s).isValid = s.isValid := by
  induction ps generalizing i s with
  | nil => exact ⟨rfl, rfl⟩
  | cons p rest ih =>
    simp only [checkSecurity]
    split
    · exact ih _ _
    · exact ih _ _

theorem checkSecurity_inv (content : Str) (i : Nat) (ps : List (Str → Bool)) (s : VState)
    (hs : validAgrees s) : validAgrees (checkSecurity content i ps s) := by
  unfold validAgrees at hs ⊢
  rw [(checkSecurity_fields content i ps s).1, (checkSecurity_fields content i ps s).2]
  exact hs

theorem inv_stage_warn1 (c : Prop) [Decidable c] (s : VState) (W : List VWarning)
    (hs : validAgrees s) :
    validAgrees (if c then (⟨s.errors, s.warnings ++ W, s.isValid⟩ : VState) else s) := by
  split
  · exact hs
  · exact hs

theorem inv_stage_warn2 (c : Prop) [Decidable c] (s : VState) (W : List VWarning)
    (hs : validAgrees s) :
    validAgrees (if c then s else (⟨s.errors, s.warnings ++ W, s.isValid⟩ : VState)) := by
  split
  · exact hs
  · exact hs

theorem inv_stage_err (c : Prop) [Decidable c] (s : VState) (e : VError)
    (hs : validAgrees s) :
    validAgrees (if c then (⟨s.errors ++ [e], s.warnings, false⟩ : VState) else s) := by
  split
  · simp [validAgrees]
  · exact hs

theorem inv_stage_err2 (c : Prop) [Decidable c] (s : VState) (e : VError)
    (hs : validAgrees s) :
    validAgrees (if c then s else (⟨s.errors ++ [e], s.warnings, false⟩ : VState)) := by
  split
  · exact hs
  · simp [validAgrees]

/-- C8: a validated document is judged valid exactly when its error list is
empty; warnings (id mismatch, missing References, naming convention,
security heuristics) never affect the verdict. -/
theorem C8_valid_iff_no_errors (forbidden security : List (Str → Bool))
    (taskMdExists : Bool) (taskFolderName content : Str) (fm : Option Frontmatter) :
    ((validateFolderEntry forbidden security taskMdExists taskFolderName content fm).isValid
        = true ↔
      (validateFolderEntry forbidden security taskMdExists taskFolderName content fm).errors
        = []) := by
  show validAgrees (validateTask forbidden security taskMdExists taskFolderName content fm)
  unfold validateTask
  split
  · simp [validAgrees]
  · cases fm with
    | none => simp [validateTaskMd, validAgrees]
    | some data =>
      simp only [validateTaskMd]
      apply checkSecurity_inv
      apply checkForbidden_inv
      apply inv_stage_warn2
      apply inv_stage_err2
      apply inv_stage_err
      apply inv_stage_warn1
      apply checkRequiredFields_inv
      simp [validAgrees]

/-! Lemmas about key removal and error membership, for the falsy-field claim. -/

theorem lookupFm_removeKey_self (data : Frontmatter) (key : Str) :
    lookupFm (removeKey data key) key = none := by
  induction data with
  | nil => rfl
  | cons p rest ih =>
    obtain ⟨k, v⟩ := p
    simp only [removeKey]
    split
    · exact ih
    · next hk =>
      simp only [lookupFm]
      rw [if_neg hk]
      exact ih

theorem lookupFm_removeKey_other (data : Frontmatter) (key f : Str) (h : f ≠ key) :
    lookupFm (removeKey data key) f = lookupFm data f := by
  induction data with
  | nil => rfl
  | cons p rest ih =>
    obtain ⟨k, v⟩ := p
    simp only [removeKey]
    split
    · next hk =>
      subst hk
      simp only [lookupFm]
      rw [if_neg (fun he => h he.symm)]
      exact ih
    · simp only [lookupFm]
      split
      · rfl
      · exact ih

theorem checkRequiredFields_congr (d1 d2 : Frontmatter) (fs : List Str) (s : VState)
    (h : ∀ f ∈ fs, truthyO (lookupFm d1 f) = truthyO (lookupFm d2 f)) :
    checkRequiredFields d1 fs s = checkRequiredFields d2 fs s := by
  induction fs generalizing s with
  | nil => rfl
  | cons f rest ih =>
    simp only [checkRequiredFields]
    rw [h f (List.mem_cons_self f rest)]
    split
    · exact ih _ (fun g hg => h g (List.mem_cons_of_mem f hg))
    · exact ih _ (fun g hg => h g (List.mem_cons_of_mem f hg))

theorem idStage_congr (o1 o2 : Option YamlScalar) (n : Str) (s : VState)
    (h : o1 = o2 ∨ (truthyO o1 = false ∧ truthyO o2 = false)) :
    (if truthyO o1 && strictNeStr (o1.getD .nullV) n then
      (⟨s.errors, s.warnings ++ [.id_mismatch (o1.getD .nullV)], s.isValid⟩ : VState)
     else s) =
    (if truthyO o2 && strictNeStr (o2.getD .nullV) n then
      (⟨s.errors, s.warnings ++ [.id_mismatch (o2.getD .nullV)], s.isValid⟩ : VState)
     else s) := by
  rcases h with h | ⟨h1, h2⟩
  · rw [h]
  · have n1 : ¬((truthyO o1 && strictNeStr (o1.getD .nullV) n) = true) := by
      rw [h1]
      simp
    have n2 : ¬((truthyO o2 && strictNeStr (o2.getD .nullV) n) = true) := by
      rw [h2]
      simp
    rw [if_neg n1, if_neg n2]

theorem typeStage_congr (o1 o2 : Option YamlScalar) (s : VState)
    (h : o1 = o2 ∨ (truthyO o1 = false ∧ truthyO o2 = false)) :
    (if truthyO o1 && !isValidType (o1.getD .nullV) then
      (⟨s.errors ++ [.invalid_type (o1.getD .nullV)], s.warnings, false⟩ : VState)
     else s) =
    (if truthyO o2 && !isValidType (o2.getD .nullV) then
      (⟨s.errors ++ [.invalid_type (o2.getD .nullV)], s.warnings, false⟩ : VState)
     else s) := by
  rcases h with h | ⟨h1, h2⟩
  · rw [h]
  · have n1 : ¬((truthyO o1 && !isValidType (o1.getD .nullV)) = true) := by
      rw [h1]
      simp
    have n2 : ¬((truthyO o2 && !isValidType (o2.getD .nullV)) = true) := by
      rw [h2]
      simp
    rw [if_neg n1, if_neg n2]

theorem checkRequiredFields_mem (data : Frontmatter) (fs : List Str) (s : VState) (e : VError)
    (he : e ∈ s.errors) : e ∈ (checkRequiredFields data fs s).errors := by
  induction fs generalizing s with
  | nil => exact he
  | cons f rest ih =>
    simp only [checkRequiredFields]
    split
    · exact ih _ he
    · exact ih _ (List.mem_append_left _ he)

theorem checkRequiredFields_pushes (data : Frontmatter) (fs : List Str) (s : VState) (f : Str)
    (hf : f ∈ fs) (hfa : truthyO (lookupFm data f) = false) :
    VError.missing_field f ∈ (checkRequiredFields data fs s).errors := by
  induction fs generalizing s with
  | nil => cases hf
  | cons g rest ih =>
    simp only [checkRequiredFields]
    rcases List.mem_cons.mp hf with h | h
    · subst h
      rw [if_neg (by rw [hfa]; simp)]
      exact checkRequiredFields_mem _ _ _ _ (List.mem_append_right _ (by simp))
    · split
      · exact ih _ h
      · exact ih _ h

theorem checkForbidden_mem (content : Str) (i : Nat) (ps : List (Str → Bool)) (s : VState)
    (e : VError) (he : e ∈ s.errors) : e ∈ (checkForbidden content i ps s).errors := by
  induction ps generalizing i s with
  | nil => exact he
  | cons p rest ih =>
    simp only [checkForbidden]
    split
    · exact ih _ _ (List.mem_append_left _ he)
    · exact ih _ _ he

theorem mem_stage_warn1 (c : Prop) [Decidable c] (s : VState) (W : List VWarning) (e : VError)
    (he : e ∈ s.errors) :
    e ∈ (if c then (⟨s.errors, s.warnings ++ W, s.isValid⟩ : VState) else s).errors := by
  split
  · exact he
  · exact he

theorem mem_stage_warn2 (c : Prop) [Decidable c] (s : VState) (W : List VWarning) (e : VError)
    (he : e ∈ s.errors) :
    e ∈ (if c then s else (⟨s.errors, s.warnings ++ W, s.isValid⟩ : VState)).errors := by
  split
  · exact he
  · exact he

theorem mem_stage_err (c : Prop) [Decidable c] (s : VState) (e0 e : VError)
    (he : e ∈ s.errors) :
    e ∈ (if c then (⟨s.errors ++ [e0], s.warnings, false⟩ : VState) else s).errors := by
  split
  · exact List.mem_append_left _ he
  · exact he

theorem mem_stage_err2 (c : Prop) [Decidable c] (s : VState) (e0 e : VError)
    (he : e ∈ s.errors) :
    e ∈ (if c then s else (⟨s.errors ++ [e0], s.warnings, false⟩ : VState)).errors := by
  split
  · exact he
  · exact List.mem_append_left _ he

/-- C10: a required frontmatter key bound to a falsy value (empty string, 0,
false, null) is reported as a missing_field error and invalidates the
document, and the whole validator result is identical to the result on the
frontmatter with that key deleted. -/
theorem C10_falsy_required_field (forbidden security : List (Str → Bool))
    (taskFolderName content : Str) (data : Frontmatter) (field : Str) (v : YamlScalar)
    (hfield : field ∈ REQUIRED_FRONTMATTER_FIELDS)
    (hv : lookupFm data field = some v)
    (hfalsy : truthy v = false) :
    VError.missing_field field ∈
      (validateTaskMd forbidden security taskFolderName content (some data)).errors ∧
    (validateTaskMd forbidden security taskFolderName content (some data)).isValid = false ∧
    validateTaskMd forbidden security taskFolderName content (some data) =
      validateTaskMd forbidden security taskFolderName content
        (some (removeKey data field)) := by
  have hfa : truthyO (lookupFm data field) = false := by
    rw [hv]
    exact hfalsy
  have hmem : VError.missing_field field ∈
      (validateTaskMd forbidden security taskFolderName content (some data)).errors := by
    simp only [validateTaskMd]
    rw [(checkSecurity_fields _ _ _ _).1]
    apply checkForbidden_mem
    apply mem_stage_warn2
    apply mem_stage_err2
    apply mem_stage_err
    apply mem_stage_warn1
    exact checkRequiredFields_pushes _ _ _ _ hfield hfa
  have hinv : validAgrees
      (validateTaskMd forbidden security taskFolderName content (some data)) := by
    simp only [validateTaskMd]
    apply checkSecurity_inv
    apply checkForbidden_inv
    apply inv_stage_warn2
    apply inv_stage_err2
    apply inv_stage_err
    apply inv_stage_warn1
    apply checkRequiredFields_inv
    simp [validAgrees]
  refine ⟨hmem, ?_, ?_⟩
  · cases hb : (validateTaskMd forbidden security taskFolderName content (some data)).isValid
    · rfl
    · exfalso
      unfold validAgrees at hinv
      rw [hinv.mp hb] at hmem
      simp at hmem
  · have hid : lookupFm data ("id".data) = lookupFm (removeKey data field) ("id".data) ∨
        (truthyO (lookupFm data ("id".data)) = false ∧
         truthyO (lookupFm (removeKey data field) ("id".data)) = false) := by
      by_cases hfk : ("id".data : Str) = field
      · subst hfk
        right
        refine ⟨hfa, ?_⟩
        rw [lookupFm_removeKey_self]
        rfl
      · left
        rw [lookupFm_removeKey_other _ _ _ hfk]
    have hty : lookupFm data ("type".data) = lookupFm (removeKey data field) ("type".data) ∨
        (truthyO (lookupFm data ("type".data)) = false ∧
         truthyO (lookupFm (removeKey data field) ("type".data)) = false) := by
      by_cases hfk : ("type".data : Str) = field
      · subst hfk
        right
        refine ⟨hfa, ?_⟩
        rw [lookupFm_removeKey_self]
        rfl
      · left
        rw [lookupFm_removeKey_other _ _ _ hfk]
    have hcr : checkRequiredFields data REQUIRED_FRONTMATTER_FIELDS ⟨[], [], true⟩ =
        checkRequiredFields (removeKey data field) REQUIRED_FRONTMATTER_FIELDS
          ⟨[], [], true⟩ := by
      apply checkRequiredFields_congr
      intro f hf
      by_cases hfk : f = field
      · subst hfk
        rw [hv, lookupFm_removeKey_self]
        simp only [truthyO]
        exact hfalsy
      · rw [lookupFm_removeKey_other _ _ _ hfk]
    simp only [validateTaskMd]
    rw [hcr, idStage_congr _ _ _ _ hid, typeStage_congr _ _ _ hty]

/-- C10 (witness). -/
theorem C10_witness :
    VError.missing_field ("id".data) ∈ (validateTaskMd [] [] ("t".data)
      ("**Prompt:** do".data) (some [(("id".data : Str), YamlScalar.strV [])])).errors ∧
    (validateTaskMd [] [] ("t".data) ("**Prompt:** do".data)
      (some [(("id".data : Str), YamlScalar.strV [])])).isValid = false ∧
    validateTaskMd [] [] ("t".data) ("**Prompt:** do".data)
      (some [(("id".data : Str), YamlScalar.strV [])]) =
    validateTaskMd [] [] ("t".data) ("**Prompt:** do".data)
      (some (removeKey [(("id".data : Str), YamlScalar.strV [])] ("id".data))) :=
  C10_falsy_required_field [] [] ("t".data) ("**Prompt:** do".data)
    [(("id".data : Str), YamlScalar.strV [])] ("id".data) (YamlScalar.strV [])
    (by decide) (by decide) (by decide)

/-! Metadata-generation lemmas. -/

theorem strictNeStr_false {v : YamlScalar} {s : Str} (h : strictNeStr v s = false) :
    v = .strV s := by
  cases v with
  | strV t =>
    simp only [strictNeStr, decide_eq_false_iff_not, Decidable.not_not] at h
    rw [h]
  | nullV => simp [strictNeStr] at h
  | boolV b => simp [strictNeStr] at h
  | numV n => simp [strictNeStr] at h

theorem processFolder_shape {f : Folder} {e : CatalogEntry} (h : processFolder f = some e) :
    e.folderName = f.name ∧ e.folderMismatch = strictNeStr e.id f.name := by
  unfold processFolder at h
  split at h
  · exact absurd h (by simp)
  · split at h
    · exact absurd h (by simp)
    · simp only [processTaskData] at h
      split at h
      · simp only [Option.some.injEq] at h
        rw [← h]
        exact ⟨rfl, rfl⟩
      · exact absurd h (by simp)

theorem mem_collectTasks {folders : List Folder} {e : CatalogEntry}
    (h : e ∈ collectTasks folders) : ∃ f ∈ folders, processFolder f = some e := by
  induction folders with
  | nil => simp [collectTasks] at h
  | cons f rest ih =>
    simp only [collectTasks] at h
    cases hp : processFolder f with
    | none =>
      simp only [hp] at h
      obtain ⟨g, hg, he⟩ := ih h
      exact ⟨g, List.mem_cons_of_mem _ hg, he⟩
    | some e0 =>
      simp only [hp] at h
      rcases List.mem_cons.mp h with h0 | h0
      · exact ⟨f, List.mem_cons_self f rest, by rw [hp, h0]⟩
      · obtain ⟨g, hg, he⟩ := ih h0
        exact ⟨g, List.mem_cons_of_mem _ hg, he⟩

theorem collectTasks_folderNames (folders : List Folder) :
    ((collectTasks folders).map (fun t => t.folderName)).Sublist
      (folders.map Folder.name) := by
  induction folders with
  | nil => simp [collectTasks]
  | cons f rest ih =>
    simp only [collectTasks, List.map_cons]
    cases hp : processFolder f with
    | none =>
      simp only [hp]
      exact ih.cons _
    | some e =>
      simp only [hp, List.map_cons]
      rw [(processFolder_shape hp).1]
      exact ih.cons₂ _

theorem countStr_eq_zero_of_not_mem {k : Str} {l : List Str} (h : k ∉ l) :
    countStr k l = 0 := by
  induction l with
  | nil => rfl
  | cons x rest ih =>
    simp only [countStr]
    rw [if_neg (fun hxk => h (by rw [← hxk]; exact List.mem_cons_self x rest))]
    rw [ih (fun hm => h (List.mem_cons_of_mem _ hm))]

theorem countStr_le_one_of_nodup {l : List Str} (h : l.Nodup) (k : Str) :
    countStr k l ≤ 1 := by
  induction l with
  | nil => exact Nat.zero_le 1
  | cons x rest ih =>
    simp only [countStr]
    by_cases hx : x = k
    · rw [if_pos hx]
      subst hx
      rw [countStr_eq_zero_of_not_mem (List.nodup_cons.mp h).1]
    · rw [if_neg hx, Nat.zero_add]
      exact ih (List.nodup_cons.mp h).2

theorem dupIds_nil_of_nodup {tasks : List CatalogEntry}
    (h : (tasks.map (fun t => idKey t.id)).Nodup) : dupIds tasks = [] := by
  unfold dupIds
  rw [List.filter_eq_nil_iff]
  intro p hp
  simp only [List.mem_map] at hp
  obtain ⟨k, hk, hpk⟩ := hp
  rw [← hpk]
  have hle := countStr_le_one_of_nodup h k
  simp only [decide_eq_true_eq]
  omega

/-- C9: if no accumulated entry carries a folder mismatch and the folder
names are distinct, every entry id is the string of its folder name, the id
list is duplicate-free, and the duplicate-id branch is dead: the run exits 0,
reports no duplicates, and writes the sorted index. -/
theorem C9_duplicate_branch_unreachable (folders : List Folder)
    (hnodup : (folders.map Folder.name).Nodup)
    (hpass : ∀ t ∈ collectTasks folders, t.folderMismatch = false) :
    (∀ t ∈ collectTasks folders, t.id = .strV t.folderName) ∧
    ((collectTasks folders).map (fun t => idKey t.id)).Nodup ∧
    dupIds (collectTasks folders) = [] ∧
    (generateMetadata folders).duplicateReport = [] ∧
    (generateMetadata folders).exitCode = 0 ∧
    (generateMetadata folders).metadataWritten =
      some (sortTasks (collectTasks folders)) := by
  have hid : ∀ t ∈ collectTasks folders, t.id = .strV t.folderName := by
    intro t ht
    obtain ⟨f, _, hf⟩ := mem_collectTasks ht
    obtain ⟨hn, hm⟩ := processFolder_shape hf
    rw [hn]
    apply strictNeStr_false
    rw [← hm]
    exact hpass t ht
  have hmapeq : (collectTasks folders).map (fun t => idKey t.id) =
      (collectTasks folders).map (fun t => t.folderName) := by
    apply List.map_congr_left
    intro t ht
    rw [hid t ht]
    rfl
  have hids : ((collectTasks folders).map (fun t => idKey t.id)).Nodup := by
    rw [hmapeq]
    exact (collectTasks_folderNames folders).nodup hnodup
  have hdup : dupIds (collectTasks folders) = [] := dupIds_nil_of_nodup hids
  have hmm : (collectTasks folders).filter (fun t => t.folderMismatch) = [] := by
    rw [List.filter_eq_nil_iff]
    intro t ht
    simp [hpass t ht]
  have hgen : generateMetadata folders =
      ⟨0, [], [], some (sortTasks (collectTasks folders))⟩ := by
    simp only [generateMetadata]
    rw [hmm, hdup]
    rw [if_neg (by simp), if_neg (by simp)]
  refine ⟨hid, hids, hdup, ?_, ?_, ?_⟩
  · rw [hgen]
  · rw [hgen]
  · rw [hgen]

/-- C9 (witness): two folders whose documents carry matching ids. -/
theorem C9_witness :
    (∀ t ∈ collectTasks
      [⟨"a".data, ["task.md".data],
        some ("---\nid: a\nname: A\n---\n\n**Prompt:**\nDo.\n".data)⟩,
       ⟨"b".data, ["task.md".data],
        some ("---\nid: b\nname: B\n---\n\n**Prompt:**\nDo.\n".data)⟩],
      t.id = .strV t.folderName) ∧
    ((collectTasks
      [⟨"a".data, ["task.md".data],
        some ("---\nid: a\nname: A\n---\n\n**Prompt:**\nDo.\n".data)⟩,
       ⟨"b".data, ["task.md".data],
        some ("---\nid: b\nname: B\n---\n\n**Prompt:**\nDo.\n".data)⟩]).map
      (fun t => idKey t.id)).Nodup ∧
    dupIds (collectTasks
      [⟨"a".data, ["task.md".data],
        some ("---\nid: a\nname: A\n---\n\n**Prompt:**\nDo.\n".data)⟩,
       ⟨"b".data, ["task.md".data],
        some ("---\nid: b\nname: B\n---\n\n**Prompt:**\nDo.\n".data)⟩]) = [] ∧
    (generateMetadata
      [⟨"a".data, ["task.md".data],
        some ("---\nid: a\nname: A\n---\n\n**Prompt:**\nDo.\n".data)⟩,
       ⟨"b".data, ["task.md".data],
        some ("---\nid: b\nname: B\n---\n\n**Prompt:**\nDo.\n".data)⟩]).duplicateReport = [] ∧
    (generateMetadata
      [⟨"a".data, ["task.md".data],
        some ("---\nid: a\nname: A\n---\n\n**Prompt:**\nDo.\n".data)⟩,
       ⟨"b".data, ["task.md".data],
        some ("---\nid: b\nname: B\n---\n\n**Prompt:**\nDo.\n".data)⟩]).exitCode = 0 ∧
    (generateMetadata
      [⟨"a".data, ["task.md".data],
        some ("---\nid: a\nname: A\n---\n\n**Prompt:**\nDo.\n".data)⟩,
       ⟨"b".data, ["task.md".data],
        some ("---\nid: b\nname: B\n---\n\n**Prompt:**\nDo.\n".data)⟩]).metadataWritten =
      some (sortTasks (collectTasks
        [⟨"a".data, ["task.md".data],
          some ("---\nid: a\nname: A\n---\n\n**Prompt:**\nDo.\n".data)⟩,
         ⟨"b".data, ["task.md".data],
          some ("---\nid: b\nname: B\n---\n\n**Prompt:**\nDo.\n".data)⟩])) :=
  C9_duplicate_branch_unreachable
    [⟨"a".data, ["task.md".data],
      some ("---\nid: a\nname: A\n---\n\n**Prompt:**\nDo.\n".data)⟩,
     ⟨"b".data, ["task.md".data],
      some ("---\nid: b\nname: B\n---\n\n**Prompt:**\nDo.\n".data)⟩]
    (by decide) (by decide)

/-- C1 (counterexample): with two folders a and b both declaring
id: shared-id, the run does exit nonzero, but it never reports that
"shared-id" appears 2 times — the duplicate report is empty, because the
folder-mismatch check fires first on both folders and exits the process
before the duplicate-id count is examined. -/
theorem C1_counterexample :
    (generateMetadata
      [⟨"a".data, ["task.md".data],
        some ("---\nid: shared-id\nname: Shared A\n---\n\n**Prompt:**\nDo.\n".data)⟩,
       ⟨"b".data, ["task.md".data],
        some ("---\nid: shared-id\nname: Shared B\n---\n\n**Prompt:**\nDo.\n".data)⟩]
      ).duplicateReport = [] ∧
    (generateMetadata
      [⟨"a".data, ["task.md".data],
        some ("---\nid: shared-id\nname: Shared A\n---\n\n**Prompt:**\nDo.\n".data)⟩,
       ⟨"b".data, ["task.md".data],
        some ("---\nid: shared-id\nname: Shared B\n---\n\n**Prompt:**\nDo.\n".data)⟩]
      ).exitCode = 1 := by decide

/-- C1 (amended): for two folders a and b sharing id: shared-id, the run
fails with exit code 1 and writes no index, but the failure is the
folder-mismatch report listing both (folder, id) pairs; the duplicate-id
message ("appears 2 times") is not produced. -/
theorem C1_mismatch_masks_duplicates :
    generateMetadata
      [⟨"a".data, ["task.md".data],
        some ("---\nid: shared-id\nname: Shared A\n---\n\n**Prompt:**\nDo.\n".data)⟩,
       ⟨"b".data, ["task.md".data],
        some ("---\nid: shared-id\nname: Shared B\n---\n\n**Prompt:**\nDo.\n".data)⟩] =
      ⟨1, [("a".data, "shared-id".data), ("b".data, "shared-id".data)], [], none⟩ := by
  decide

/-- C2 (counterexample): a frontmatter carrying a truthy id but no name is
skipped (no catalog entry), although the claim promises an entry whenever at
least one of id/name is present. -/
theorem C2_counterexample :
    lookupFm [(("id".data : Str), YamlScalar.strV ("x".data))] ("id".data) ≠ none ∧
    processTaskData ("x".data)
      [(("id".data : Str), YamlScalar.strV ("x".data))] = none := by decide

/-- C2 (amended): a catalog entry is produced for a folder exactly when BOTH
the id and the name frontmatter fields are truthy; a single present field is
not enough, and a falsy (not merely absent) field also causes the skip. -/
theorem C2_entry_iff_both_truthy (taskFolderName : Str) (data : Frontmatter) :
    (processTaskData taskFolderName data).isSome =
      (truthyO (lookupFm data ("id".data)) && truthyO (lookupFm data ("name".data))) := by
  unfold processTaskData
  split
  · next h =>
    rw [h]
    rfl
  · next h =>
    rw [Bool.of_not_eq_true h]
    rfl

end AppMod
